import Mathlib

/-!
Shallow embedding of the backy2 levelled chunk store (src/backy2/main.py).

Bytes are modelled as natural numbers, byte files as lists of bytes, and
the MD5 digest as an explicit function parameter `md5 : List Nat → String`
(the source calls `hashlib.md5(data).hexdigest()`; properties that depend
on collision freedom take injectivity of `md5` as a hypothesis).
Python's mutable objects become explicit state passing, and raised
exceptions become `Except BackyErr`.
-/

namespace Backy2

/-- `CHUNK_SIZE = 1024*4096` from the source. -/
def CHUNK_SIZE : Nat := 1024 * 4096

/-- `CHUNK_STATUS_EXISTS = 0`. -/
def CHUNK_STATUS_EXISTS : Int := 0

/-- `CHUNK_STATUS_WIPED = 1`. -/
def CHUNK_STATUS_WIPED : Int := 1

/-- The error kinds the source raises.  The source uses `BackyException`
with a message for most of these; we give each raise site its own
constructor, matching the spec's error taxonomy one-to-one. -/
inductive BackyErr where
  | chunkTooLarge
  | shrinkUnsupported
  | hintsOutOfRange
  | unexpectedEOF
  | levelNotFound
  | chunkMissing (chunk_id : Nat)
  | chunkNotFound
  | chunkChecksumWrong
deriving Repr, DecidableEq

/-- The `Chunk` descriptor class with its class-level defaults
(`checksum = ''`, `offset = 0`, `length = 0`, `status = -1`). -/
structure Chunk where
  checksum : String := ""
  offset : Nat := 0
  length : Nat := 0
  status : Int := -1
deriving Repr, DecidableEq

/-- The `Index` class: `chunk_size`, logical `size` in bytes, and the
`_index` dict mapping chunk id to descriptor.  Python dicts preserve
insertion order; we model `_index` as an association list in insertion
order, which also makes the insertion rank explicit. -/
structure Index where
  chunk_size : Nat
  size : Nat := 0
  entries : List (Nat × Chunk) := []
deriving Repr, DecidableEq

/-- `chunk_id in self._index`. -/
def Index.has (idx : Index) (chunk_id : Nat) : Bool :=
  idx.entries.any (fun e => e.1 == chunk_id)

/-- Dictionary lookup `self._index[chunk_id]`. -/
def Index.lookup (idx : Index) (chunk_id : Nat) : Option Chunk :=
  (idx.entries.find? (fun e => e.1 == chunk_id)).map Prod.snd

/-- `Index._next_offset`: `len(self._index) * self.chunk_size`. -/
def Index.nextOffset (idx : Index) : Nat :=
  idx.entries.length * idx.chunk_size

/-- `Index.get`: get an existing chunk or create a new one at the next
offset.  Returns the descriptor together with the (possibly extended)
index, making the dict mutation explicit. -/
def Index.get (idx : Index) (chunk_id : Nat) : Chunk × Index :=
  match idx.lookup chunk_id with
  | some c => (c, idx)
  | none =>
    let c : Chunk := { offset := idx.nextOffset }
    (c, { idx with entries := idx.entries ++ [(chunk_id, c)] })

/-- Replace the descriptor stored under a key in an association list. -/
def setEntry (chunk_id : Nat) (c : Chunk) : List (Nat × Chunk) → List (Nat × Chunk)
  | [] => []
  | e :: t => (if e.1 == chunk_id then (e.1, c) else e) :: setEntry chunk_id c t

/-- Explicit counterpart of Python's in-place mutation of the descriptor
returned by `Index.get`: replace the stored descriptor for `chunk_id`. -/
def Index.setChunk (idx : Index) (chunk_id : Nat) (c : Chunk) : Index :=
  { idx with entries := setEntry chunk_id c idx.entries }

/-- `Index.write` serialised lines: the size line followed by one line
per chunk in ascending chunk-id order. -/
def Index.writeLines (idx : Index) : List String :=
  toString idx.size ::
    (((idx.entries.map Prod.fst).mergeSort (fun a b => a ≤ b)).map (fun k =>
      match idx.lookup k with
      | some v => toString k ++ "|" ++ v.checksum ++ "|" ++ toString v.offset ++ "|"
          ++ toString v.length ++ "|" ++ toString v.status
      | none => ""))

/-- Writing `d` into a byte file at offset `off` with Python file
semantics: seeking past the end zero-fills the gap. -/
def writeAt (file : List Nat) (off : Nat) (d : List Nat) : List Nat :=
  let padded := file ++ List.replicate (off - file.length) 0
  padded.take off ++ d ++ padded.drop (off + d.length)

/-- The `Level` class: an index plus the raw data file.  The Python
object also stores `chunk_size`, always equal to its index's
`chunk_size` (both are set from the same constructor argument). -/
structure Level where
  index : Index
  data : List Nat := []
deriving Repr, DecidableEq

/-- `self.chunk_size` of a level. -/
def Level.chunk_size (lvl : Level) : Nat := lvl.index.chunk_size

/-- The `size` property: `self.index.size`. -/
def Level.size (lvl : Level) : Nat := lvl.index.size

/-- A freshly constructed (empty) level, as produced by opening
non-existing data/index files. -/
def emptyLevel (chunk_size : Nat) : Level :=
  { index := { chunk_size := chunk_size } }

/-- `Level.write`: refuse data longer than `chunk_size`; otherwise
obtain the descriptor via `index.get`, update `checksum`, `length`,
`status`, and write the payload at the descriptor's offset. -/
def Level.write (lvl : Level) (md5 : List Nat → String) (chunk_id : Nat) (d : List Nat) :
    Except BackyErr Level :=
  if d.length > lvl.chunk_size then
    .error .chunkTooLarge
  else
    let checksum := md5 d
    let got := lvl.index.get chunk_id
    let chunk' : Chunk :=
      { got.1 with checksum := checksum, length := d.length, status := CHUNK_STATUS_EXISTS }
    .ok { index := got.2.setChunk chunk_id chunk',
          data := writeAt lvl.data got.1.offset d }

/-- `Level.read_meta`: descriptor lookup, `ChunkNotFound` when absent. -/
def Level.read_meta (lvl : Level) (chunk_id : Nat) : Except BackyErr Chunk :=
  match lvl.index.lookup chunk_id with
  | some c => .ok c
  | none => .error .chunkNotFound

/-- `Level.read`: read the chunk's bytes and validate the checksum; on
mismatch fail only when `raise_on_error` (otherwise the source logs
critical and returns the bytes anyway). -/
def Level.read (lvl : Level) (md5 : List Nat → String) (chunk_id : Nat)
    (raise_on_error : Bool) : Except BackyErr (List Nat) := do
  let chunk ← lvl.read_meta chunk_id
  let data := (lvl.data.drop chunk.offset).take chunk.length
  if md5 data = chunk.checksum then
    pure data
  else if raise_on_error then
    throw .chunkChecksumWrong
  else
    pure data

/-- `Level.set_size`: grow `index.size`; shrinking is refused. -/
def Level.set_size (lvl : Level) (size : Nat) : Except BackyErr Level :=
  if lvl.index.size > size then
    .error .shrinkUnsupported
  else
    .ok { lvl with index := { lvl.index with size := size } }

/-- `Level.invalidate_chunk`: `self.index.get(chunk_id).checksum = ''`. -/
def Level.invalidate_chunk (lvl : Level) (chunk_id : Nat) : Level :=
  let got := lvl.index.get chunk_id
  { lvl with index := got.2.setChunk chunk_id { got.1 with checksum := "" } }

/-- `chunks_from_hints`, with Python's integer semantics (floor division
also for negative numerators, e.g. `length = 0`), hence over `Int`. -/
def chunks_from_hints (hints : List (Int × Int)) (chunk_size : Int) : Finset Int :=
  hints.foldl (fun chunks h =>
    let start_chunk := h.1.fdiv chunk_size
    let end_chunk := start_chunk + (h.2 - 1).fdiv chunk_size
    chunks ∪ Finset.Icc start_chunk end_chunk) ∅

/-- `math.ceil(a / b)` for natural `a` and positive `b`. -/
def ceilDiv (a b : Nat) : Nat := (a + b - 1) / b

/-- The on-disk state of one named backup as managed by the `Backy`
class: the base level plus the overlay levels `0, 1, …` in order of
creation (the archives the code produces have contiguous overlay
numbers, so `get_levels` is the list of their positions). -/
structure Archive where
  chunk_size : Nat
  base : Level
  overlays : List Level := []
deriving Repr, DecidableEq

/-- A fresh archive: no files on disk yet. -/
def emptyArchive (chunk_size : Nat) : Archive :=
  { chunk_size := chunk_size, base := emptyLevel chunk_size }

/-- `Backy.get_levels`: the sorted overlay numbers found on disk. -/
def Archive.get_levels (arch : Archive) : List Nat :=
  List.range arch.overlays.length

/-- `Backy.get_next_level`. -/
def Archive.get_next_level (arch : Archive) : Nat :=
  arch.overlays.length

/-- The shared tail of one backup-loop iteration after the fast-path
check failed or no descriptor existed: evict the old base chunk into the
next level (when the base has one), then write the new data to base. -/
def backupEvict (md5 : List Nat → String) (base_level next_level : Level)
    (chunk_id : Nat) (data : List Nat) : Except BackyErr (Level × Level) := do
  let next' ←
    match base_level.read md5 chunk_id false with
    | .ok old_data => next_level.write md5 chunk_id old_data
    | .error .chunkNotFound => pure next_level
    | .error e => throw e
  let base' ← base_level.write md5 chunk_id data
  pure (base', next')

/-- One iteration of the backup loop (the body of
`for chunk_id in sorted(read_chunks)` in `Backy.backup`). -/
def backupChunk (md5 : List Nat → String) (cs : Nat) (source : List Nat)
    (st : Level × Level) (chunk_id : Nat) : Except BackyErr (Level × Level) := do
  let data := (source.drop (chunk_id * cs)).take cs
  if data.isEmpty then
    throw .unexpectedEOF
  let data_checksum := md5 data
  match st.1.read_meta chunk_id with
  | .ok meta =>
    if data_checksum = meta.checksum then
      pure st
    else
      backupEvict md5 st.1 st.2 chunk_id data
  | .error _ =>
    backupEvict md5 st.1 st.2 chunk_id data

/-- The backup loop over the selected chunk ids. -/
def backupLoop (md5 : List Nat → String) (cs : Nat) (source : List Nat) :
    Level × Level → List Nat → Except BackyErr (Level × Level)
  | st, [] => .ok st
  | st, c :: rest => do
    let st' ← backupChunk md5 cs source st c
    backupLoop md5 cs source st' rest

/-- The chunk-id list the backup loop iterates over, already in
ascending order: `sorted(chunks_from_hints(...))` when (non-empty)
hints are given, `range(num_chunks_src)` otherwise. -/
def backupReadChunks (cs : Nat) (source_size : Nat)
    (hints : Option (List (Nat × Nat))) : List Nat :=
  let hs := hints.getD []
  if hs.isEmpty = false then
    ((chunks_from_hints (hs.map (fun h => ((h.1 : Int), (h.2 : Int)))) (cs : Int)).sort
      (fun a b => a ≤ b)).map Int.toNat
  else
    List.range (ceilDiv source_size cs)

/-- `Backy.backup` with `hints=None` modelled as `none` and a Python
falsy empty hint list behaving like `None`. -/
def Archive.backup (md5 : List Nat → String) (arch : Archive) (source : List Nat)
    (hints : Option (List (Nat × Nat))) : Except BackyErr Archive := do
  let cs := arch.chunk_size
  let source_size := source.length
  let next_level ← (emptyLevel cs).set_size arch.base.size
  let base_level ← arch.base.set_size source_size
  let hs := hints.getD []
  if hs.isEmpty = false then
    if (hs.map (fun h => h.1 + h.2)).foldl max 0 > source_size then
      throw .hintsOutOfRange
  let read_chunks : List Nat := backupReadChunks cs source_size hints
  let st ← backupLoop md5 cs source (base_level, next_level) read_chunks
  pure { arch with base := st.1, overlays := arch.overlays ++ [st.2] }

/-- The walk list opened by `Backy.restore`: the requested overlay
through the newest overlay, then the base level. -/
def Archive.restoreWalk (arch : Archive) (level : Option Nat) : List Level :=
  let all_levels := arch.get_levels
  let to_restore_levels : List Nat :=
    match level with
    | none => []
    | some g => all_levels.drop (all_levels.indexOf g)
  (to_restore_levels.map (fun l => arch.overlays.getD l (emptyLevel arch.chunk_size)))
    ++ [arch.base]

/-- `max_chunk = (levels[0].size - 1) // chunk_size; num_chunks = max_chunk + 1`
with Python floor division (so a size of 0 gives 0 chunks). -/
def Archive.restoreNumChunks (arch : Archive) (level : Option Nat) : Nat :=
  let levels := arch.restoreWalk level
  let max_chunk : Int :=
    (((levels.headD (emptyLevel arch.chunk_size)).size : Int) - 1).fdiv (arch.chunk_size : Int)
  (max_chunk + 1).toNat

/-- The read-list loop of `Backy.restore`: assign each chunk id to the
first level of the walk whose index contains it. -/
def buildReadList (walk : List Level) : List Nat → Except BackyErr (List (Nat × Level))
  | [] => .ok []
  | c :: rest =>
    match walk.find? (fun lvl => lvl.index.has c) with
    | some lvl => (buildReadList walk rest).map (fun rl => (c, lvl) :: rl)
    | none => .error (.chunkMissing c)

/-- The read-list phase of `Backy.restore`, including the up-front
check that the requested level exists. -/
def Archive.restoreReadList (arch : Archive) (level : Option Nat) :
    Except BackyErr (List (Nat × Level)) := do
  let all_levels := arch.get_levels
  match level with
  | some g =>
    if all_levels.contains g = false then
      throw .levelNotFound
    else
      buildReadList (arch.restoreWalk (some g)) (List.range (arch.restoreNumChunks (some g)))
  | none =>
    buildReadList (arch.restoreWalk none) (List.range (arch.restoreNumChunks none))

/-- The streaming phase of `Backy.restore`: read each listed chunk
(non-strict) and write it to the target at its natural offset.  The
target was opened with mode `wb`, i.e. initially empty. -/
def restoreStream (md5 : List Nat → String) (cs : Nat) :
    List Nat → List (Nat × Level) → Except BackyErr (List Nat)
  | tgt, [] => .ok tgt
  | tgt, (c, lvl) :: rest => do
    let data ← lvl.read md5 c false
    restoreStream md5 cs (writeAt tgt (c * cs) data) rest

/-- `Backy.restore`: returns the bytes written to the target file. -/
def Archive.restore (md5 : List Nat → String) (arch : Archive) (level : Option Nat) :
    Except BackyErr (List Nat) := do
  let rl ← arch.restoreReadList level
  restoreStream md5 arch.chunk_size [] rl

/-- The bytes currently stored for a chunk id in a level (the slice of
the data file that `Level.read` returns when the id is present). -/
def Level.chunkData (lvl : Level) (c : Nat) : List Nat :=
  match lvl.index.lookup c with
  | some ch => (lvl.data.drop ch.offset).take ch.length
  | none => []

/-- Chunk `c` of an image. -/
def chunkOf (cs : Nat) (img : List Nat) (c : Nat) : List Nat :=
  (img.drop (c * cs)).take cs

/-! ### Basic lemmas about `Index` operations -/

theorem Index.lookup_isSome_iff_has (idx : Index) (c : Nat) :
    (idx.lookup c).isSome = idx.has c := by
  simp only [Index.lookup, Index.has, Option.isSome_map]
  induction idx.entries with
  | nil => rfl
  | cons e t ih =>
    cases h : (e.1 == c) <;> simp [List.find?, h, ih]

theorem Index.has_true_iff (idx : Index) (c : Nat) :
    idx.has c = true ↔ ∃ ch, idx.lookup c = some ch := by
  rw [← Index.lookup_isSome_iff_has]
  cases h : idx.lookup c <;> simp [h]

theorem Index.has_false_iff (idx : Index) (c : Nat) :
    idx.has c = false ↔ idx.lookup c = none := by
  rw [← Index.lookup_isSome_iff_has]
  cases h : idx.lookup c <;> simp [h]

theorem Index.setChunk_chunk_size (idx : Index) (cid : Nat) (ch : Chunk) :
    (idx.setChunk cid ch).chunk_size = idx.chunk_size := rfl

theorem Index.setChunk_size (idx : Index) (cid : Nat) (ch : Chunk) :
    (idx.setChunk cid ch).size = idx.size := rfl

theorem setEntry_keys (cid : Nat) (ch : Chunk) (t : List (Nat × Chunk)) :
    (setEntry cid ch t).map Prod.fst = t.map Prod.fst := by
  induction t with
  | nil => rfl
  | cons e t ih =>
    simp only [setEntry, List.map_cons, ih]
    congr 1
    split <;> rfl

theorem Index.setChunk_keys (idx : Index) (cid : Nat) (ch : Chunk) :
    (idx.setChunk cid ch).entries.map Prod.fst = idx.entries.map Prod.fst :=
  setEntry_keys cid ch idx.entries

theorem Index.setChunk_length (idx : Index) (cid : Nat) (ch : Chunk) :
    (idx.setChunk cid ch).entries.length = idx.entries.length := by
  have h := congrArg List.length (Index.setChunk_keys idx cid ch)
  simpa using h

theorem Index.lookup_setChunk_self (idx : Index) (cid : Nat) (ch : Chunk) :
    (idx.setChunk cid ch).lookup cid = (idx.lookup cid).map (fun _ => ch) := by
  simp only [Index.setChunk, Index.lookup]
  induction idx.entries with
  | nil => rfl
  | cons e t ih =>
    cases h : (e.1 == cid) with
    | true => simp [setEntry, List.find?, h]
    | false => simp [setEntry, List.find?, h, ih]

theorem Index.lookup_setChunk_ne (idx : Index) (cid : Nat) (ch : Chunk) (c : Nat)
    (hne : c ≠ cid) : (idx.setChunk cid ch).lookup c = idx.lookup c := by
  simp only [Index.setChunk, Index.lookup]
  induction idx.entries with
  | nil => rfl
  | cons e t ih =>
    cases h : (e.1 == c) with
    | true =>
      have hec : e.1 = c := by simpa using h
      have h1 : (e.1 == cid) = false := by
        simp only [beq_eq_false_iff_ne, ne_eq, hec]
        exact hne
      simp [setEntry, List.find?, h, h1]
    | false =>
      cases h2 : (e.1 == cid) with
      | true =>
        have h3 : (((e.1, ch) : Nat × Chunk).1 == c) = false := h
        simp [setEntry, List.find?, h, h2, h3, ih]
      | false => simp [setEntry, List.find?, h, h2, ih]

theorem Index.has_setChunk (idx : Index) (cid : Nat) (ch : Chunk) (c : Nat) :
    (idx.setChunk cid ch).has c = idx.has c := by
  rw [← Index.lookup_isSome_iff_has, ← Index.lookup_isSome_iff_has]
  by_cases h : c = cid
  · subst h
    rw [Index.lookup_setChunk_self]
    cases idx.lookup c <;> rfl
  · rw [Index.lookup_setChunk_ne _ _ _ _ h]

theorem Index.get_of_lookup_some (idx : Index) (c : Nat) (ch : Chunk)
    (h : idx.lookup c = some ch) : idx.get c = (ch, idx) := by
  simp [Index.get, h]

theorem Index.get_of_lookup_none (idx : Index) (c : Nat)
    (h : idx.lookup c = none) :
    idx.get c = ({ offset := idx.nextOffset },
      { idx with entries := idx.entries ++ [(c, { offset := idx.nextOffset })] }) := by
  simp [Index.get, h]

theorem Index.lookup_append_single (idx : Index) (c cid : Nat) (ch : Chunk) :
    (Index.lookup { idx with entries := idx.entries ++ [(cid, ch)] } c)
      = ((idx.lookup c).orElse (fun _ => if cid = c then some ch else none)) := by
  simp only [Index.lookup, List.find?_append]
  cases h : idx.entries.find? (fun e => e.1 == c) with
  | some e => simp [Option.or, h]
  | none =>
    cases h2 : (cid == c) with
    | true =>
      simp only [beq_iff_eq] at h2
      simp [Option.or, h, List.find?, h2]
    | false =>
      have h3 : ¬(cid = c) := by simpa [beq_iff_eq] using h2
      simp [Option.or, h, List.find?, h2, h3]

/-! ### Lemmas about `writeAt` (Python file write semantics) -/

theorem writeAt_length (f : List Nat) (off : Nat) (d : List Nat) :
    (writeAt f off d).length = max (off + d.length) f.length := by
  simp only [writeAt, List.length_append, List.length_take, List.length_drop,
    List.length_replicate]
  omega

theorem writeAt_slice (f : List Nat) (off : Nat) (d : List Nat) :
    ((writeAt f off d).drop off).take d.length = d := by
  have hA : ((f ++ List.replicate (off - f.length) 0).take off).length = off := by
    rw [List.length_take, List.length_append, List.length_replicate]
    omega
  simp only [writeAt]
  rw [List.append_assoc, List.drop_left' hA]
  exact List.take_left _ _

theorem writeAt_at_end (f : List Nat) (d : List Nat) :
    writeAt f f.length d = f ++ d := by
  simp only [writeAt, Nat.sub_self, List.replicate_zero, List.append_nil,
    List.take_length]
  rw [List.drop_eq_nil_of_le (by omega), List.append_nil]

theorem padded_window (f : List Nat) (m o2 l2 : Nat) (h : o2 + l2 ≤ f.length) :
    (((f ++ List.replicate m 0).drop o2).take l2) = ((f.drop o2).take l2) := by
  rw [List.drop_append_of_le_length (by omega),
    List.take_append_of_le_length (by simp [List.length_drop]; omega)]

theorem writeAt_preserve (f : List Nat) (off : Nat) (d : List Nat) (o2 l2 : Nat)
    (hin : o2 + l2 ≤ f.length) (hdisj : o2 + l2 ≤ off ∨ off + d.length ≤ o2) :
    ((writeAt f off d).drop o2).take l2 = (f.drop o2).take l2 := by
  rcases hdisj with hbefore | hafter
  · -- the read window lies entirely before the written region
    have e1 : ((writeAt f off d).drop o2).take l2
        = ((writeAt f off d).take (o2 + l2)).drop o2 :=
      List.take_drop o2 l2 _
    have e2 : (writeAt f off d).take (o2 + l2)
        = ((f ++ List.replicate (off - f.length) 0).take off).take (o2 + l2) := by
      simp only [writeAt]
      rw [List.append_assoc]
      exact List.take_append_of_le_length
        (by rw [List.length_take, List.length_append, List.length_replicate]; omega)
    have e3 : ((f ++ List.replicate (off - f.length) 0).take off).take (o2 + l2)
        = (f ++ List.replicate (off - f.length) 0).take (o2 + l2) := by
      rw [List.take_take]
      congr 1
      omega
    have e4 : (f ++ List.replicate (off - f.length) 0).take (o2 + l2)
        = f.take (o2 + l2) :=
      List.take_append_of_le_length (by omega)
    have e5 : (f.drop o2).take l2 = (f.take (o2 + l2)).drop o2 :=
      List.take_drop o2 l2 f
    rw [e1, e2, e3, e4, e5]
  · -- the read window lies entirely after the written region
    have e0 : (writeAt f off d).drop o2
        = (f ++ List.replicate (off - f.length) 0).drop o2 := by
      have hAd : (((f ++ List.replicate (off - f.length) 0).take off) ++ d).length
          = off + d.length := by
        rw [List.length_append, List.length_take, List.length_append,
          List.length_replicate]
        omega
      simp only [writeAt]
      have ho2 : o2 = ((((f ++ List.replicate (off - f.length) 0).take off) ++ d)).length
          + (o2 - (off + d.length)) := by
        rw [hAd]; omega
      conv_lhs => rw [ho2]
      rw [List.drop_append, List.drop_drop]
      congr 1
      omega
    rw [e0]
    exact padded_window f _ o2 l2 hin

/-! ### Characterisation of the `Level` operations -/

/-- The offset `Level.write` writes at: the existing descriptor's offset
for a known id, the next free offset for a fresh id. -/
def Level.writeOffsetFor (lvl : Level) (cid : Nat) : Nat :=
  match lvl.index.lookup cid with
  | some ch => ch.offset
  | none => lvl.index.nextOffset

theorem Level.write_too_large (lvl : Level) (md5 : List Nat → String) (cid : Nat)
    (d : List Nat) (h : lvl.chunk_size < d.length) :
    lvl.write md5 cid d = .error .chunkTooLarge := by
  simp [Level.write, h]

theorem Level.write_eq_ok_some (lvl : Level) (md5 : List Nat → String) (cid : Nat)
    (d : List Nat) (ch : Chunk) (h : d.length ≤ lvl.chunk_size)
    (hl : lvl.index.lookup cid = some ch) :
    lvl.write md5 cid d = .ok
      { index := lvl.index.setChunk cid
          { ch with checksum := md5 d, length := d.length, status := CHUNK_STATUS_EXISTS },
        data := writeAt lvl.data ch.offset d } := by
  rw [Level.write, if_neg (by omega), Index.get_of_lookup_some _ _ _ hl]

theorem Level.write_eq_ok_none (lvl : Level) (md5 : List Nat → String) (cid : Nat)
    (d : List Nat) (h : d.length ≤ lvl.chunk_size)
    (hl : lvl.index.lookup cid = none) :
    lvl.write md5 cid d = .ok
      { index := (Index.setChunk
          { lvl.index with
            entries := lvl.index.entries ++ [(cid, { offset := lvl.index.nextOffset })] }
          cid
          { checksum := md5 d, offset := lvl.index.nextOffset, length := d.length,
            status := CHUNK_STATUS_EXISTS }),
        data := writeAt lvl.data lvl.index.nextOffset d } := by
  rw [Level.write, if_neg (by omega), Index.get_of_lookup_none _ _ hl]

theorem Level.write_isOk_iff (lvl : Level) (md5 : List Nat → String) (cid : Nat)
    (d : List Nat) :
    (∃ lvl', lvl.write md5 cid d = .ok lvl') ↔ d.length ≤ lvl.chunk_size := by
  constructor
  · rintro ⟨lvl', h⟩
    by_contra hc
    rw [Level.write_too_large lvl md5 cid d (by omega)] at h
    exact absurd h (by simp)
  · intro h
    cases hl : lvl.index.lookup cid with
    | some ch => exact ⟨_, Level.write_eq_ok_some lvl md5 cid d ch h hl⟩
    | none => exact ⟨_, Level.write_eq_ok_none lvl md5 cid d h hl⟩

theorem Level.write_err_iff (lvl : Level) (md5 : List Nat → String) (cid : Nat)
    (d : List Nat) :
    lvl.write md5 cid d = .error .chunkTooLarge ↔ lvl.chunk_size < d.length := by
  constructor
  · intro h
    by_contra hc
    obtain ⟨lvl', h2⟩ := (Level.write_isOk_iff lvl md5 cid d).mpr (by omega)
    rw [h2] at h
    exact absurd h (by simp)
  · exact Level.write_too_large lvl md5 cid d

theorem Level.write_ok_lookup_self (lvl lvl' : Level) (md5 : List Nat → String)
    (cid : Nat) (d : List Nat) (h : lvl.write md5 cid d = .ok lvl') :
    lvl'.index.lookup cid = some
      { checksum := md5 d, offset := lvl.writeOffsetFor cid, length := d.length,
        status := CHUNK_STATUS_EXISTS } := by
  have hle : d.length ≤ lvl.chunk_size := by
    by_contra hc
    rw [Level.write_too_large lvl md5 cid d (by omega)] at h
    exact absurd h (by simp)
  cases hl : lvl.index.lookup cid with
  | some ch =>
    rw [Level.write_eq_ok_some lvl md5 cid d ch hle hl] at h
    cases h
    simp only [Level.writeOffsetFor, hl]
    rw [Index.lookup_setChunk_self, hl]
    rfl
  | none =>
    rw [Level.write_eq_ok_none lvl md5 cid d hle hl] at h
    cases h
    simp only [Level.writeOffsetFor, hl]
    rw [Index.lookup_setChunk_self, Index.lookup_append_single, hl]
    simp [Option.orElse]

theorem Level.write_ok_lookup_ne (lvl lvl' : Level) (md5 : List Nat → String)
    (cid : Nat) (d : List Nat) (c : Nat) (hne : c ≠ cid)
    (h : lvl.write md5 cid d = .ok lvl') :
    lvl'.index.lookup c = lvl.index.lookup c := by
  have hle : d.length ≤ lvl.chunk_size := by
    by_contra hc
    rw [Level.write_too_large lvl md5 cid d (by omega)] at h
    exact absurd h (by simp)
  cases hl : lvl.index.lookup cid with
  | some ch =>
    rw [Level.write_eq_ok_some lvl md5 cid d ch hle hl] at h
    cases h
    exact Index.lookup_setChunk_ne _ _ _ _ hne
  | none =>
    rw [Level.write_eq_ok_none lvl md5 cid d hle hl] at h
    cases h
    rw [Index.lookup_setChunk_ne _ _ _ _ hne, Index.lookup_append_single]
    cases h2 : lvl.index.lookup c with
    | some ch2 => simp [Option.orElse]
    | none =>
      have hnc : ¬(cid = c) := fun hh => hne hh.symm
      simp [Option.orElse, hnc]

theorem Level.write_ok_data (lvl lvl' : Level) (md5 : List Nat → String)
    (cid : Nat) (d : List Nat) (h : lvl.write md5 cid d = .ok lvl') :
    lvl'.data = writeAt lvl.data (lvl.writeOffsetFor cid) d := by
  have hle : d.length ≤ lvl.chunk_size := by
    by_contra hc
    rw [Level.write_too_large lvl md5 cid d (by omega)] at h
    exact absurd h (by simp)
  cases hl : lvl.index.lookup cid with
  | some ch =>
    rw [Level.write_eq_ok_some lvl md5 cid d ch hle hl] at h
    cases h
    simp [Level.writeOffsetFor, hl]
  | none =>
    rw [Level.write_eq_ok_none lvl md5 cid d hle hl] at h
    cases h
    simp [Level.writeOffsetFor, hl]

theorem Level.write_ok_size (lvl lvl' : Level) (md5 : List Nat → String)
    (cid : Nat) (d : List Nat) (h : lvl.write md5 cid d = .ok lvl') :
    lvl'.index.size = lvl.index.size ∧ lvl'.index.chunk_size = lvl.index.chunk_size := by
  have hle : d.length ≤ lvl.chunk_size := by
    by_contra hc
    rw [Level.write_too_large lvl md5 cid d (by omega)] at h
    exact absurd h (by simp)
  cases hl : lvl.index.lookup cid with
  | some ch =>
    rw [Level.write_eq_ok_some lvl md5 cid d ch hle hl] at h
    cases h
    exact ⟨rfl, rfl⟩
  | none =>
    rw [Level.write_eq_ok_none lvl md5 cid d hle hl] at h
    cases h
    exact ⟨rfl, rfl⟩

theorem exceptBind_ok {α β ε : Type} (a : α) (f : α → Except ε β) :
    (Except.ok a >>= f) = f a := rfl

theorem exceptBind_err {α β ε : Type} (e : ε) (f : α → Except ε β) :
    ((Except.error e : Except ε α) >>= f) = .error e := rfl

theorem Level.read_meta_some (lvl : Level) (c : Nat) (ch : Chunk)
    (h : lvl.index.lookup c = some ch) : lvl.read_meta c = .ok ch := by
  simp [Level.read_meta, h]

theorem Level.read_meta_none (lvl : Level) (c : Nat)
    (h : lvl.index.lookup c = none) : lvl.read_meta c = .error .chunkNotFound := by
  simp [Level.read_meta, h]

theorem Level.read_nonstrict (lvl : Level) (md5 : List Nat → String) (c : Nat)
    (ch : Chunk) (h : lvl.index.lookup c = some ch) :
    lvl.read md5 c false = .ok ((lvl.data.drop ch.offset).take ch.length) := by
  simp only [Level.read, Level.read_meta_some lvl c ch h, exceptBind_ok]
  split
  · rfl
  · rfl

theorem Level.read_nonstrict_chunkData (lvl : Level) (md5 : List Nat → String) (c : Nat)
    (ch : Chunk) (h : lvl.index.lookup c = some ch) :
    lvl.read md5 c false = .ok (lvl.chunkData c) := by
  rw [Level.read_nonstrict lvl md5 c ch h]
  simp [Level.chunkData, h]

theorem Level.read_notfound (lvl : Level) (md5 : List Nat → String) (c : Nat) (b : Bool)
    (h : lvl.index.lookup c = none) : lvl.read md5 c b = .error .chunkNotFound := by
  simp only [Level.read, Level.read_meta_none lvl c h, exceptBind_err]

theorem Level.read_strict_bad (lvl : Level) (md5 : List Nat → String) (c : Nat)
    (ch : Chunk) (h : lvl.index.lookup c = some ch)
    (hbad : md5 ((lvl.data.drop ch.offset).take ch.length) ≠ ch.checksum) :
    lvl.read md5 c true = .error .chunkChecksumWrong := by
  simp only [Level.read, Level.read_meta_some lvl c ch h, exceptBind_ok]
  rw [if_neg hbad]
  rfl

theorem Level.set_size_ok (lvl : Level) (n : Nat) (h : lvl.index.size ≤ n) :
    lvl.set_size n = .ok { lvl with index := { lvl.index with size := n } } := by
  rw [Level.set_size, if_neg (by omega)]

theorem Level.set_size_err_iff (lvl : Level) (n : Nat) :
    lvl.set_size n = .error .shrinkUnsupported ↔ n < lvl.size := by
  constructor
  · intro h
    by_contra hc
    rw [Level.set_size_ok lvl n (by simp only [Level.size] at hc; omega)] at h
    exact absurd h (by simp)
  · intro h
    rw [Level.set_size, if_pos (by simp only [Level.size] at h; omega)]

/-! ### Well-formedness of indexes and levels -/

/-- Structural invariant of an index built through the public
operations: distinct keys, and each descriptor's offset equals its
insertion rank times the chunk size (spec invariant I1). -/
def IndexWF (idx : Index) : Prop :=
  (idx.entries.map Prod.fst).Nodup ∧
  ∀ k : Fin idx.entries.length, (idx.entries.get k).2.offset = k.1 * idx.chunk_size

/-- Structural invariant of a level: a well-formed index whose
descriptors fit in a chunk window and (when non-empty) lie inside the
data file. -/
def LevelWF (lvl : Level) : Prop :=
  IndexWF lvl.index ∧
  ∀ e ∈ lvl.index.entries, e.2.length ≤ lvl.chunk_size ∧
    (e.2.length = 0 ∨ e.2.offset + e.2.length ≤ lvl.data.length)

theorem Index.has_iff_mem_keys (idx : Index) (c : Nat) :
    idx.has c = true ↔ c ∈ idx.entries.map Prod.fst := by
  simp only [Index.has, List.any_eq_true, List.mem_map]
  constructor
  · rintro ⟨e, he, hbeq⟩
    exact ⟨e, he, by simpa using hbeq⟩
  · rintro ⟨e, he, hk⟩
    exact ⟨e, he, by simpa using hk⟩

theorem setEntry_length (cid : Nat) (c' : Chunk) (t : List (Nat × Chunk)) :
    (setEntry cid c' t).length = t.length := by
  induction t with
  | nil => rfl
  | cons e t ih => simp [setEntry, ih]

theorem setEntry_get (cid : Nat) (c' : Chunk) :
    ∀ (t : List (Nat × Chunk)) (k : Nat) (hk : k < t.length),
      (setEntry cid c' t).get ⟨k, by rw [setEntry_length]; exact hk⟩ =
        if (t.get ⟨k, hk⟩).1 == cid then ((t.get ⟨k, hk⟩).1, c') else t.get ⟨k, hk⟩
  | e :: t, 0, hk => rfl
  | e :: t, k + 1, hk => by
    simp only [setEntry, List.get_cons_succ]
    exact setEntry_get cid c' t k (by simpa using hk)

theorem find?_key_of_get_nodup :
    ∀ (t : List (Nat × Chunk)), (t.map Prod.fst).Nodup →
      ∀ (k : Nat) (hk : k < t.length) (c : Nat), (t.get ⟨k, hk⟩).1 = c →
      t.find? (fun e => e.1 == c) = some (t.get ⟨k, hk⟩)
  | e :: t, hnd, 0, hk, c, hc => by
    have hb : (e.1 == c) = true := by simpa using hc
    simp [List.find?, hb]
  | e :: t, hnd, k + 1, hk, c, hc => by
    simp only [List.get_cons_succ] at hc
    have hmem : c ∈ t.map Prod.fst := by
      rw [← hc]
      exact List.mem_map_of_mem Prod.fst (List.get_mem t k _)
    have hne : e.1 ≠ c := by
      intro hh
      rw [List.map_cons, List.nodup_cons] at hnd
      exact hnd.1 (hh ▸ hmem)
    have hb : (e.1 == c) = false := by simpa using hne
    simp only [List.find?, hb]
    exact find?_key_of_get_nodup t (by
      rw [List.map_cons, List.nodup_cons] at hnd
      exact hnd.2) k (by simpa using hk) c hc

theorem Index.lookup_mem (idx : Index) (c : Nat) (ch : Chunk)
    (h : idx.lookup c = some ch) : (c, ch) ∈ idx.entries := by
  simp only [Index.lookup] at h
  cases hf : idx.entries.find? (fun e => e.1 == c) with
  | none => rw [hf] at h; exact absurd h (by simp)
  | some e =>
    rw [hf] at h
    have h1 : e.1 = c := by simpa using List.find?_some hf
    have h2 : e.2 = ch := by simpa using h
    have h3 : e ∈ idx.entries := List.mem_of_find?_eq_some hf
    have : (c, ch) = e := by
      cases e
      simp_all
    rw [this]
    exact h3

theorem Index.lookup_rank (idx : Index) (hWF : IndexWF idx) (c : Nat) (ch : Chunk)
    (h : idx.lookup c = some ch) :
    ∃ k : Fin idx.entries.length, idx.entries.get k = (c, ch) ∧
      ch.offset = k.1 * idx.chunk_size := by
  obtain ⟨k, hk⟩ := List.mem_iff_get.mp (Index.lookup_mem idx c ch h)
  refine ⟨k, hk, ?_⟩
  have := hWF.2 k
  rw [hk] at this
  exact this

theorem Index.lookup_of_get_nodup (idx : Index) (hnd : (idx.entries.map Prod.fst).Nodup)
    (k : Fin idx.entries.length) :
    idx.lookup (idx.entries.get k).1 = some (idx.entries.get k).2 := by
  simp only [Index.lookup]
  rw [find?_key_of_get_nodup idx.entries hnd k.1 k.2 _ rfl]
  rfl

theorem IndexWF_setChunk (idx : Index) (cid : Nat) (ch c' : Chunk)
    (hWF : IndexWF idx) (hl : idx.lookup cid = some ch) (hoff : c'.offset = ch.offset) :
    IndexWF (idx.setChunk cid c') := by
  constructor
  · rw [Index.setChunk_keys]
    exact hWF.1
  · intro k
    have hk' : k.1 < idx.entries.length := by
      have := k.2
      simpa [Index.setChunk, setEntry_length] using this
    have hget : (idx.setChunk cid c').entries.get k =
        (if (idx.entries.get ⟨k.1, hk'⟩).1 == cid
          then ((idx.entries.get ⟨k.1, hk'⟩).1, c') else idx.entries.get ⟨k.1, hk'⟩) := by
      have := setEntry_get cid c' idx.entries k.1 hk'
      simp only [Index.setChunk]
      convert this using 2
    rw [hget]
    cases hb : ((idx.entries.get ⟨k.1, hk'⟩).1 == cid) with
    | true =>
      simp only [if_pos]
      have hkey : (idx.entries.get ⟨k.1, hk'⟩).1 = cid := by simpa using hb
      have hlk := Index.lookup_of_get_nodup idx hWF.1 ⟨k.1, hk'⟩
      rw [hkey, hl] at hlk
      have hch : (idx.entries.get ⟨k.1, hk'⟩).2 = ch := by
        simpa using hlk.symm
      have := hWF.2 ⟨k.1, hk'⟩
      simp only [Index.setChunk_chunk_size]
      rw [hoff, ← hch]
      exact this
    | false =>
      simp only [Bool.false_eq_true, if_neg, not_false_iff]
      have := hWF.2 ⟨k.1, hk'⟩
      simpa [Index.setChunk_chunk_size] using this

theorem IndexWF_insert (idx : Index) (c : Nat) (hWF : IndexWF idx)
    (hl : idx.lookup c = none) :
    IndexWF { idx with entries := idx.entries ++ [(c, { offset := idx.nextOffset })] } := by
  have hnotmem : c ∉ idx.entries.map Prod.fst := by
    intro hmem
    have := (Index.has_iff_mem_keys idx c).mpr hmem
    rw [← Index.lookup_isSome_iff_has, hl] at this
    exact absurd this (by simp)
  constructor
  · simp only [List.map_append, List.map_cons, List.map_nil]
    rw [List.nodup_append]
    exact ⟨hWF.1, List.nodup_singleton c, by simpa using hnotmem⟩
  · intro k
    have hk2 : k.1 < idx.entries.length + 1 := by
      have := k.2
      simpa using this
    by_cases hlt : k.1 < idx.entries.length
    · have hg : (idx.entries ++ [(c, ({ offset := idx.nextOffset } : Chunk))]).get k
          = idx.entries.get ⟨k.1, hlt⟩ := by
        rw [List.get_eq_getElem, List.get_eq_getElem]
        exact List.getElem_append_left hlt
      simp only [hg]
      exact hWF.2 ⟨k.1, hlt⟩
    · have hke : k.1 = idx.entries.length := by omega
      have hg : (idx.entries ++ [(c, ({ offset := idx.nextOffset } : Chunk))]).get k
          = (c, ({ offset := idx.nextOffset } : Chunk)) := by
        rw [List.get_eq_getElem]
        exact List.getElem_concat_length idx.entries _ k.1 hke _
      show ((idx.entries ++ [(c, ({ offset := idx.nextOffset } : Chunk))]).get k).2.offset
        = k.1 * idx.chunk_size
      rw [hg, hke]
      rfl

theorem Level.write_ok_chunkData_self (lvl lvl' : Level) (md5 : List Nat → String)
    (cid : Nat) (d : List Nat) (h : lvl.write md5 cid d = .ok lvl') :
    lvl'.chunkData cid = d := by
  rw [Level.chunkData, Level.write_ok_lookup_self lvl lvl' md5 cid d h,
    Level.write_ok_data lvl lvl' md5 cid d h]
  exact writeAt_slice lvl.data (lvl.writeOffsetFor cid) d

theorem LevelWF.lookup_bounds (lvl : Level) (hWF : LevelWF lvl) (c : Nat) (ch : Chunk)
    (h : lvl.index.lookup c = some ch) :
    ch.length ≤ lvl.chunk_size ∧
      (ch.length = 0 ∨ ch.offset + ch.length ≤ lvl.data.length) :=
  hWF.2 (c, ch) (Index.lookup_mem lvl.index c ch h)

theorem IndexWF.ranks_ne (idx : Index) (hWF : IndexWF idx) (c1 c2 : Nat)
    (ch1 ch2 : Chunk) (h1 : idx.lookup c1 = some ch1) (h2 : idx.lookup c2 = some ch2)
    (hne : c1 ≠ c2) (l1 l2 : Nat) (hl1 : l1 ≤ idx.chunk_size)
    (hl2 : l2 ≤ idx.chunk_size) :
    ch1.offset + l1 ≤ ch2.offset ∨ ch2.offset + l2 ≤ ch1.offset := by
  obtain ⟨k1, hk1, ho1⟩ := Index.lookup_rank idx hWF c1 ch1 h1
  obtain ⟨k2, hk2, ho2⟩ := Index.lookup_rank idx hWF c2 ch2 h2
  have hkne : k1.1 ≠ k2.1 := by
    intro hh
    apply hne
    have : idx.entries.get k1 = idx.entries.get k2 := by
      congr 1
      exact Fin.ext hh
    rw [hk1, hk2] at this
    exact congrArg Prod.fst this
  rcases Nat.lt_or_ge k1.1 k2.1 with hlt | hge
  · left
    rw [ho1, ho2]
    calc k1.1 * idx.chunk_size + l1 ≤ k1.1 * idx.chunk_size + idx.chunk_size := by omega
      _ = (k1.1 + 1) * idx.chunk_size := by ring
      _ ≤ k2.1 * idx.chunk_size := Nat.mul_le_mul_right _ (by omega)
  · right
    have hlt2 : k2.1 < k1.1 := by omega
    rw [ho1, ho2]
    calc k2.1 * idx.chunk_size + l2 ≤ k2.1 * idx.chunk_size + idx.chunk_size := by omega
      _ = (k2.1 + 1) * idx.chunk_size := by ring
      _ ≤ k1.1 * idx.chunk_size := Nat.mul_le_mul_right _ (by omega)

theorem IndexWF.offset_lt_nextOffset (idx : Index) (hWF : IndexWF idx) (c : Nat)
    (ch : Chunk) (h : idx.lookup c = some ch) (l : Nat) (hl : l ≤ idx.chunk_size) :
    ch.offset + l ≤ idx.nextOffset := by
  obtain ⟨k, hk, ho⟩ := Index.lookup_rank idx hWF c ch h
  rw [ho, Index.nextOffset]
  calc k.1 * idx.chunk_size + l ≤ k.1 * idx.chunk_size + idx.chunk_size := by omega
    _ = (k.1 + 1) * idx.chunk_size := by ring
    _ ≤ idx.entries.length * idx.chunk_size := Nat.mul_le_mul_right _ k.2

theorem Level.write_ok_chunkData_ne (lvl lvl' : Level) (md5 : List Nat → String)
    (cid : Nat) (d : List Nat) (c : Nat) (hWF : LevelWF lvl) (hne : c ≠ cid)
    (h : lvl.write md5 cid d = .ok lvl') :
    lvl'.chunkData c = lvl.chunkData c := by
  have hle : d.length ≤ lvl.chunk_size := (Level.write_isOk_iff lvl md5 cid d).mp ⟨lvl', h⟩
  rw [Level.chunkData, Level.chunkData, Level.write_ok_lookup_ne lvl lvl' md5 cid d c hne h]
  cases hc : lvl.index.lookup c with
  | none => rfl
  | some ch =>
    rw [Level.write_ok_data lvl lvl' md5 cid d h]
    obtain ⟨hlen, hwin⟩ := LevelWF.lookup_bounds lvl hWF c ch hc
    rcases hwin with h0 | hwin
    · simp [h0]
    · apply writeAt_preserve _ _ _ _ _ hwin
      rw [Level.writeOffsetFor]
      cases hcid : lvl.index.lookup cid with
      | some ch2 =>
        rcases IndexWF.ranks_ne lvl.index hWF.1 c cid ch ch2 hc hcid hne
            ch.length d.length hlen hle with hh | hh
        · left; exact hh
        · right; exact hh
      | none =>
        left
        exact IndexWF.offset_lt_nextOffset lvl.index hWF.1 c ch hc ch.length hlen

theorem Level.write_ok_has (lvl lvl' : Level) (md5 : List Nat → String)
    (cid : Nat) (d : List Nat) (c : Nat) (h : lvl.write md5 cid d = .ok lvl') :
    (lvl'.index.has c = true ↔ (lvl.index.has c = true ∨ c = cid)) := by
  by_cases hc : c = cid
  · subst hc
    rw [← Index.lookup_isSome_iff_has lvl'.index c,
      Level.write_ok_lookup_self lvl lvl' md5 c d h]
    simp
  · rw [← Index.lookup_isSome_iff_has lvl'.index c,
      Level.write_ok_lookup_ne lvl lvl' md5 cid d c hc h,
      Index.lookup_isSome_iff_has]
    simp [hc]

theorem Level.write_ok_data_length (lvl lvl' : Level) (md5 : List Nat → String)
    (cid : Nat) (d : List Nat) (h : lvl.write md5 cid d = .ok lvl') :
    lvl.data.length ≤ lvl'.data.length ∧
      lvl.writeOffsetFor cid + d.length ≤ lvl'.data.length := by
  rw [Level.write_ok_data lvl lvl' md5 cid d h, writeAt_length]
  omega

theorem Level.write_ok_chunk_size (lvl lvl' : Level) (md5 : List Nat → String)
    (cid : Nat) (d : List Nat) (h : lvl.write md5 cid d = .ok lvl') :
    lvl'.chunk_size = lvl.chunk_size :=
  (Level.write_ok_size lvl lvl' md5 cid d h).2

theorem LevelWF_write (lvl lvl' : Level) (md5 : List Nat → String)
    (cid : Nat) (d : List Nat) (hWF : LevelWF lvl)
    (h : lvl.write md5 cid d = .ok lvl') : LevelWF lvl' := by
  have hle : d.length ≤ lvl.chunk_size := (Level.write_isOk_iff lvl md5 cid d).mp ⟨lvl', h⟩
  have hcs : lvl'.chunk_size = lvl.chunk_size := Level.write_ok_chunk_size lvl lvl' md5 cid d h
  have hIWF : IndexWF lvl'.index := by
    cases hl : lvl.index.lookup cid with
    | some ch =>
      rw [Level.write_eq_ok_some lvl md5 cid d ch hle hl] at h
      cases h
      exact IndexWF_setChunk lvl.index cid ch _ hWF.1 hl rfl
    | none =>
      rw [Level.write_eq_ok_none lvl md5 cid d hle hl] at h
      cases h
      have hins := IndexWF_insert lvl.index cid hWF.1 hl
      have hlk2 : Index.lookup
          { lvl.index with
            entries := lvl.index.entries ++ [(cid, { offset := lvl.index.nextOffset })] }
          cid = some ({ offset := lvl.index.nextOffset }) := by
        rw [Index.lookup_append_single, hl]
        simp [Option.orElse]
      exact IndexWF_setChunk _ cid ({ offset := lvl.index.nextOffset }) _ hins hlk2 rfl
  refine ⟨hIWF, ?_⟩
  -- every descriptor fits its window
  intro e he
  obtain ⟨k, hk⟩ := List.mem_iff_get.mp he
  by_cases hkey : e.1 = cid
  · have hlk : lvl'.index.lookup cid = some e.2 := by
      have := Index.lookup_of_get_nodup lvl'.index hIWF.1 k
      rw [hk, hkey] at this
      exact this
    rw [Level.write_ok_lookup_self lvl lvl' md5 cid d h] at hlk
    have he2 := Option.some.inj hlk
    rw [← he2, hcs]
    exact ⟨hle, Or.inr (Level.write_ok_data_length lvl lvl' md5 cid d h).2⟩
  · have hlk : lvl'.index.lookup e.1 = some e.2 := by
      have := Index.lookup_of_get_nodup lvl'.index hIWF.1 k
      rw [hk] at this
      exact this
    rw [Level.write_ok_lookup_ne lvl lvl' md5 cid d e.1 hkey h] at hlk
    have hold := hWF.2 (e.1, e.2) (Index.lookup_mem lvl.index e.1 e.2 hlk)
    rw [hcs]
    refine ⟨hold.1, ?_⟩
    rcases hold.2 with h0 | hw
    · exact Or.inl h0
    · exact Or.inr (le_trans hw (Level.write_ok_data_length lvl lvl' md5 cid d h).1)

/-! ### A concrete injective digest for witnesses

The source uses MD5; any digest function can be plugged into the
embedding.  For concrete witnesses we use an injective encoding with
non-empty output. -/

/-- Unary encoding of a byte list into characters. -/
def encodeBytes (d : List Nat) : List Char :=
  d.foldr (fun n acc => List.replicate n 'a' ++ 'b' :: acc) []

/-- A stand-in digest: injective and never empty. -/
def md5Test (d : List Nat) : String :=
  String.mk ('h' :: encodeBytes d)

theorem replicate_marker_inj :
    ∀ (n m : Nat) (x y : List Char),
      List.replicate n 'a' ++ 'b' :: x = List.replicate m 'a' ++ 'b' :: y →
      n = m ∧ x = y
  | 0, 0, x, y, h => by
    simp only [List.replicate_zero, List.nil_append, List.cons.injEq] at h
    exact ⟨rfl, h.2⟩
  | 0, m + 1, x, y, h => by
    simp only [List.replicate_zero, List.nil_append, List.replicate_succ,
      List.cons_append, List.cons.injEq] at h
    exact absurd h.1 (by decide)
  | n + 1, 0, x, y, h => by
    simp only [List.replicate_zero, List.nil_append, List.replicate_succ,
      List.cons_append, List.cons.injEq] at h
    exact absurd h.1 (by decide)
  | n + 1, m + 1, x, y, h => by
    simp only [List.replicate_succ, List.cons_append, List.cons.injEq] at h
    obtain ⟨he, ht⟩ := replicate_marker_inj n m x y h.2
    exact ⟨by omega, ht⟩

theorem encodeBytes_inj : ∀ (xs ys : List Nat), encodeBytes xs = encodeBytes ys → xs = ys
  | [], [], _ => rfl
  | [], y :: ys, h => by
    have hlen := congrArg List.length h
    simp [encodeBytes] at hlen
    omega
  | x :: xs, [], h => by
    have hlen := congrArg List.length h
    simp [encodeBytes] at hlen
  | x :: xs, y :: ys, h => by
    simp only [encodeBytes, List.foldr_cons] at h
    obtain ⟨he, ht⟩ := replicate_marker_inj x y _ _ h
    have := encodeBytes_inj xs ys ht
    rw [he, this]

theorem md5Test_injective : Function.Injective md5Test := by
  intro a b h
  have hdata : 'h' :: encodeBytes a = 'h' :: encodeBytes b := congrArg String.data h
  exact encodeBytes_inj a b (List.cons.inj hdata).2

theorem md5Test_ne_empty (d : List Nat) : md5Test d ≠ "" := by
  intro h
  have hdata := congrArg String.data h
  simp [md5Test] at hdata

/-! ### Claim C5: `Level.write` contract -/

/-- C5: `Level.write(chunk_id, data)` fails with `ChunkTooLarge` iff
`len(data) > CHUNK_SIZE`; otherwise it records `checksum = md5(data)`,
`length = len(data)`, `status = EXISTS`, writes the payload at the
descriptor's offset, assigns offset `|index| * chunk_size` to a fresh
chunk id and reuses the stored offset of an existing chunk id. -/
theorem C5_level_write_contract (md5 : List Nat → String) (lvl : Level) (cid : Nat)
    (d : List Nat) :
    (lvl.write md5 cid d = .error .chunkTooLarge ↔ lvl.chunk_size < d.length) ∧
    (d.length ≤ lvl.chunk_size →
      ∃ lvl', lvl.write md5 cid d = .ok lvl' ∧
        lvl'.index.lookup cid = some
          { checksum := md5 d, offset := lvl.writeOffsetFor cid, length := d.length,
            status := CHUNK_STATUS_EXISTS } ∧
        ((lvl'.data.drop (lvl.writeOffsetFor cid)).take d.length = d) ∧
        (lvl.index.has cid = false →
          lvl.writeOffsetFor cid = lvl.index.entries.length * lvl.index.chunk_size) ∧
        (∀ ch, lvl.index.lookup cid = some ch → lvl.writeOffsetFor cid = ch.offset)) := by
  refine ⟨Level.write_err_iff lvl md5 cid d, ?_⟩
  intro hle
  obtain ⟨lvl', hok⟩ := (Level.write_isOk_iff lvl md5 cid d).mpr hle
  refine ⟨lvl', hok, Level.write_ok_lookup_self lvl lvl' md5 cid d hok, ?_, ?_, ?_⟩
  · rw [Level.write_ok_data lvl lvl' md5 cid d hok]
    exact writeAt_slice lvl.data (lvl.writeOffsetFor cid) d
  · intro hhas
    rw [Level.writeOffsetFor, (Index.has_false_iff lvl.index cid).mp hhas]
    rfl
  · intro ch hch
    rw [Level.writeOffsetFor, hch]

/-- Witness for C5 at a concrete level and payload. -/
theorem C5_level_write_contract_witness :
    (2 ≤ (emptyLevel 4).chunk_size) ∧
    (∃ lvl', (emptyLevel 4).write md5Test 0 [9, 9] = .ok lvl' ∧
      lvl'.index.lookup 0 = some
        { checksum := md5Test [9, 9], offset := (emptyLevel 4).writeOffsetFor 0,
          length := 2, status := CHUNK_STATUS_EXISTS } ∧
      ((lvl'.data.drop ((emptyLevel 4).writeOffsetFor 0)).take 2 = [9, 9]) ∧
      ((emptyLevel 4).index.has 0 = false →
        (emptyLevel 4).writeOffsetFor 0
          = (emptyLevel 4).index.entries.length * (emptyLevel 4).index.chunk_size) ∧
      (∀ ch, (emptyLevel 4).index.lookup 0 = some ch →
        (emptyLevel 4).writeOffsetFor 0 = ch.offset)) :=
  ⟨by decide, (C5_level_write_contract md5Test (emptyLevel 4) 0 [9, 9]).2 (by decide)⟩

/-! ### Claim C6: `invalidate_chunk` on a present chunk -/

/-- C6: for a chunk id present in the index, `invalidate_chunk` clears
the stored checksum to the empty string, leaves offset, length, status
and the data bytes unchanged, and a subsequent strict-mode read fails
with `ChunkChecksumWrong` (the digest of the stored bytes is never the
empty string). -/
theorem C6_invalidate_present (md5 : List Nat → String) (lvl : Level) (cid : Nat)
    (hhas : lvl.index.has cid = true) (hne : ∀ x, md5 x ≠ "") :
    ∃ ch, lvl.index.lookup cid = some ch ∧
      (lvl.invalidate_chunk cid).index.lookup cid = some { ch with checksum := "" } ∧
      (lvl.invalidate_chunk cid).data = lvl.data ∧
      (lvl.invalidate_chunk cid).read md5 cid true = .error .chunkChecksumWrong := by
  obtain ⟨ch, hch⟩ := (Index.has_true_iff lvl.index cid).mp hhas
  have hinv : lvl.invalidate_chunk cid =
      { lvl with index := lvl.index.setChunk cid { ch with checksum := "" } } := by
    rw [Level.invalidate_chunk, Index.get_of_lookup_some _ _ _ hch]
  have hlk : (lvl.invalidate_chunk cid).index.lookup cid
      = some { ch with checksum := "" } := by
    rw [hinv]
    show (lvl.index.setChunk cid { ch with checksum := "" }).lookup cid = _
    rw [Index.lookup_setChunk_self, hch]
    rfl
  refine ⟨ch, hch, hlk, by rw [hinv], ?_⟩
  apply Level.read_strict_bad _ md5 cid _ hlk
  show md5 _ ≠ ({ ch with checksum := "" } : Chunk).checksum
  exact hne _

/-- A concrete one-chunk level used by witnesses. -/
def oneChunkLevel : Level :=
  { index := { chunk_size := 4, size := 2, entries := [(0, { checksum := md5Test [9, 9], offset := 0, length := 2, status := 0 })] }, data := [9, 9] }

/-- Witness for C6 at a concrete one-chunk level. -/
theorem C6_invalidate_present_witness :
    oneChunkLevel.index.has 0 = true ∧
    ∃ ch, oneChunkLevel.index.lookup 0 = some ch ∧
      (oneChunkLevel.invalidate_chunk 0).index.lookup 0 = some { ch with checksum := "" } ∧
      (oneChunkLevel.invalidate_chunk 0).data = oneChunkLevel.data ∧
      (oneChunkLevel.invalidate_chunk 0).read md5Test 0 true = .error .chunkChecksumWrong :=
  ⟨by decide, C6_invalidate_present md5Test oneChunkLevel 0 (by decide) md5Test_ne_empty⟩

/-! ### Claim C10: `invalidate_chunk` on an absent chunk id -/

/-- C10: for a chunk id absent from the index, `invalidate_chunk` does
not fail; through `Index.get` it silently inserts a brand-new descriptor
(offset = cardinality · chunk_size, empty checksum, length 0, status
-1) without touching the data file, and the next index flush serialises
a line for this never-written chunk. -/
theorem C10_invalidate_absent (lvl : Level) (cid : Nat)
    (hhas : lvl.index.has cid = false) :
    (lvl.invalidate_chunk cid).index.lookup cid = some
      { checksum := "", offset := lvl.index.entries.length * lvl.index.chunk_size,
        length := 0, status := -1 } ∧
    (lvl.invalidate_chunk cid).data = lvl.data ∧
    (lvl.invalidate_chunk cid).index.has cid = true ∧
    (toString cid ++ "|" ++ "" ++ "|"
        ++ toString (lvl.index.entries.length * lvl.index.chunk_size) ++ "|"
        ++ toString (0 : Nat) ++ "|" ++ toString (-1 : Int))
      ∈ (lvl.invalidate_chunk cid).index.writeLines := by
  have hl : lvl.index.lookup cid = none := (Index.has_false_iff _ _).mp hhas
  have hdata : (lvl.invalidate_chunk cid).data = lvl.data := by
    simp only [Level.invalidate_chunk, Index.get_of_lookup_none _ _ hl]
  have hlk : (lvl.invalidate_chunk cid).index.lookup cid = some
      { checksum := "", offset := lvl.index.entries.length * lvl.index.chunk_size,
        length := 0, status := -1 } := by
    simp only [Level.invalidate_chunk, Index.get_of_lookup_none _ _ hl]
    rw [Index.lookup_setChunk_self, Index.lookup_append_single, hl]
    simp [Option.orElse, Index.nextOffset]
  refine ⟨hlk, hdata, ?_, ?_⟩
  · rw [← Index.lookup_isSome_iff_has, hlk]
    rfl
  · rw [Index.writeLines]
    apply List.mem_cons_of_mem
    apply List.mem_map.mpr
    refine ⟨cid, ?_, ?_⟩
    · apply List.mem_mergeSort.mpr
      simp only [Level.invalidate_chunk, Index.get_of_lookup_none _ _ hl]
      rw [Index.setChunk_keys]
      simp
    · rw [hlk]

/-- Witness for C10 at a concrete empty level. -/
theorem C10_invalidate_absent_witness :
    (emptyLevel 4).index.has 7 = false ∧
    (((emptyLevel 4).invalidate_chunk 7).index.lookup 7 = some
      { checksum := "", offset := (emptyLevel 4).index.entries.length * (emptyLevel 4).index.chunk_size,
        length := 0, status := -1 } ∧
    ((emptyLevel 4).invalidate_chunk 7).data = (emptyLevel 4).data ∧
    ((emptyLevel 4).invalidate_chunk 7).index.has 7 = true ∧
    (toString 7 ++ "|" ++ "" ++ "|"
        ++ toString ((emptyLevel 4).index.entries.length * (emptyLevel 4).index.chunk_size) ++ "|"
        ++ toString (0 : Nat) ++ "|" ++ toString (-1 : Int))
      ∈ ((emptyLevel 4).invalidate_chunk 7).index.writeLines) :=
  ⟨by decide, C10_invalidate_absent (emptyLevel 4) 7 (by decide)⟩

/-! ### Claim C3: `chunks_from_hints` coverage -/

/-- C3 as stated is false: the hint `(offset 2, length 4)` with chunk
size 4 touches bytes `[2, 6)`, and `k = 1` satisfies
`k·cs ≤ offset+length-1` and `(k+1)·cs > offset`, yet the function
returns only `{0}` (the source uses `(length-1) // chunk_size`, not
`(offset+length-1) // chunk_size`). -/
theorem C3_counterexample :
    (1 : Int) * 4 ≤ 2 + 4 - 1 ∧ ((1 : Int) + 1) * 4 > 2 ∧
    (1 : Int) ∉ chunks_from_hints [(2, 4)] 4 := by decide

theorem mem_foldl_hintChunks (cs : Int) :
    ∀ (hints : List (Int × Int)) (s : Finset Int) (k : Int), k ∈ s →
      k ∈ List.foldl (fun chunks h =>
        chunks ∪ Finset.Icc (h.1.fdiv cs) (h.1.fdiv cs + (h.2 - 1).fdiv cs)) s hints
  | [], s, k, hk => hk
  | h :: hints, s, k, hk => by
    simp only [List.foldl_cons]
    exact mem_foldl_hintChunks cs hints _ k (Finset.mem_union_left _ hk)

theorem mem_foldl_hintChunks_of_hint (cs : Int) :
    ∀ (hints : List (Int × Int)) (s : Finset Int) (o l k : Int), (o, l) ∈ hints →
      k ∈ Finset.Icc (o.fdiv cs) (o.fdiv cs + (l - 1).fdiv cs) →
      k ∈ List.foldl (fun chunks h =>
        chunks ∪ Finset.Icc (h.1.fdiv cs) (h.1.fdiv cs + (h.2 - 1).fdiv cs)) s hints
  | [], s, o, l, k, hmem, _ => absurd hmem (List.not_mem_nil _)
  | h :: hints, s, o, l, k, hmem, hk => by
    simp only [List.foldl_cons]
    rcases List.mem_cons.mp hmem with heq | htail
    · subst heq
      exact mem_foldl_hintChunks cs hints _ k (Finset.mem_union_right _ hk)
    · exact mem_foldl_hintChunks_of_hint cs hints _ o l k htail hk

/-- C3 amended: the stated coverage holds for hints whose offset is
chunk-aligned (`offset % chunk_size = 0`); in general the source's
`start + (length-1) // chunk_size` upper end undercounts ranges that
straddle a chunk boundary from an unaligned offset. -/
theorem C3_amended_aligned (hints : List (Int × Int)) (cs o l k : Int)
    (hcs : 0 < cs) (hmem : (o, l) ∈ hints) (_hl : 1 ≤ l) (halign : o % cs = 0)
    (h1 : k * cs ≤ o + l - 1) (h2 : (k + 1) * cs > o) :
    k ∈ chunks_from_hints hints cs := by
  have hcs' : (0 : Int) ≤ cs := le_of_lt hcs
  have ho : cs * (o / cs) = o := by
    have := Int.ediv_add_emod o cs
    omega
  have hstart : o.fdiv cs = o / cs := Int.fdiv_eq_ediv o hcs'
  have hend : (l - 1).fdiv cs = (l - 1) / cs := Int.fdiv_eq_ediv (l - 1) hcs'
  have hq1 : o / cs ≤ k := by
    by_contra hc
    push_neg at hc
    have : (k + 1) * cs ≤ (o / cs) * cs := by
      apply mul_le_mul_of_nonneg_right _ hcs'
      omega
    rw [mul_comm (o / cs) cs, ho] at this
    omega
  have hq2 : k ≤ o / cs + (l - 1) / cs := by
    have hle : (k - o / cs) * cs ≤ l - 1 := by
      have : k * cs - (o / cs) * cs ≤ o + l - 1 - o := by
        rw [mul_comm (o / cs) cs, ho]
        omega
      calc (k - o / cs) * cs = k * cs - (o / cs) * cs := by ring
        _ ≤ o + l - 1 - o := this
        _ = l - 1 := by ring
    have := (Int.le_ediv_iff_mul_le hcs).mpr hle
    omega
  have hk : k ∈ Finset.Icc (o.fdiv cs) (o.fdiv cs + (l - 1).fdiv cs) := by
    rw [Finset.mem_Icc, hstart, hend]
    exact ⟨hq1, hq2⟩
  show k ∈ List.foldl _ ∅ hints
  exact mem_foldl_hintChunks_of_hint cs hints ∅ o l k hmem hk

/-- Witness for the amended C3 at a concrete aligned hint. -/
theorem C3_amended_aligned_witness :
    (0 : Int) < 4 ∧ ((4 : Int), (4 : Int)) ∈ [((4 : Int), (4 : Int))] ∧
    (1 : Int) ≤ 4 ∧ (4 : Int) % 4 = 0 ∧ (1 : Int) * 4 ≤ 4 + 4 - 1 ∧
    ((1 : Int) + 1) * 4 > 4 ∧ (1 : Int) ∈ chunks_from_hints [(4, 4)] 4 :=
  ⟨by decide, by decide, by decide, by decide, by decide, by decide,
    C3_amended_aligned [(4, 4)] 4 4 4 1 (by decide) (by decide) (by decide)
      (by decide) (by decide) (by decide)⟩

/-! ### Claim C7: offsets equal insertion rank times chunk size -/

/-- The public operations that can touch an index: a bare `Index.get`
(as `read_meta` / `invalidate_chunk` perform) or a `Level.write`. -/
inductive IndexOp where
  | getOp (chunk_id : Nat)
  | writeOp (chunk_id : Nat) (d : List Nat)

/-- Apply one operation to a level; a failing write (ChunkTooLarge)
leaves the state unchanged, since the source raises before touching
anything. -/
def applyOp (md5 : List Nat → String) (lvl : Level) : IndexOp → Level
  | .getOp cid => { lvl with index := (lvl.index.get cid).2 }
  | .writeOp cid d =>
    match lvl.write md5 cid d with
    | .ok lvl' => lvl'
    | .error _ => lvl

/-- Apply a sequence of operations starting from an empty level. -/
def applyOps (md5 : List Nat → String) (cs : Nat) (ops : List IndexOp) : Level :=
  ops.foldl (applyOp md5) (emptyLevel cs)

theorem LevelWF_empty (cs : Nat) : LevelWF (emptyLevel cs) := by
  refine ⟨⟨List.nodup_nil, fun k => absurd k.2 (by simp [emptyLevel])⟩, ?_⟩
  intro e he
  exact absurd he (List.not_mem_nil e)

theorem LevelWF_get (lvl : Level) (c : Nat) (hWF : LevelWF lvl) :
    LevelWF { lvl with index := (lvl.index.get c).2 } := by
  cases hl : lvl.index.lookup c with
  | some ch =>
    rw [Index.get_of_lookup_some _ _ _ hl]
    exact hWF
  | none =>
    rw [Index.get_of_lookup_none _ _ hl]
    refine ⟨IndexWF_insert lvl.index c hWF.1 hl, ?_⟩
    intro e he
    rcases List.mem_append.mp he with hold | hnew
    · exact hWF.2 e hold
    · have : e = (c, ({ offset := lvl.index.nextOffset } : Chunk)) := by simpa using hnew
      rw [this]
      exact ⟨Nat.zero_le _, Or.inl rfl⟩

theorem LevelWF_applyOp (md5 : List Nat → String) (lvl : Level) (op : IndexOp)
    (hWF : LevelWF lvl) : LevelWF (applyOp md5 lvl op) := by
  cases op with
  | getOp cid => exact LevelWF_get lvl cid hWF
  | writeOp cid d =>
    simp only [applyOp]
    cases hw : lvl.write md5 cid d with
    | ok lvl' => exact LevelWF_write lvl lvl' md5 cid d hWF hw
    | error e => exact hWF

theorem applyOp_chunk_size (md5 : List Nat → String) (lvl : Level) (op : IndexOp) :
    (applyOp md5 lvl op).chunk_size = lvl.chunk_size := by
  cases op with
  | getOp cid =>
    cases hl : lvl.index.lookup cid with
    | some ch => rw [applyOp, Index.get_of_lookup_some _ _ _ hl]
    | none =>
      rw [applyOp, Index.get_of_lookup_none _ _ hl]
      rfl
  | writeOp cid d =>
    simp only [applyOp]
    cases hw : lvl.write md5 cid d with
    | ok lvl' => exact Level.write_ok_chunk_size lvl lvl' md5 cid d hw
    | error e => rfl

theorem applyOps_WF (md5 : List Nat → String) (cs : Nat) (ops : List IndexOp) :
    LevelWF (applyOps md5 cs ops) ∧ (applyOps md5 cs ops).chunk_size = cs := by
  suffices h : ∀ (ops : List IndexOp) (lvl : Level), LevelWF lvl →
      LevelWF (ops.foldl (applyOp md5) lvl) ∧
      (ops.foldl (applyOp md5) lvl).chunk_size = lvl.chunk_size by
    have := h ops (emptyLevel cs) (LevelWF_empty cs)
    exact ⟨this.1, this.2⟩
  intro ops
  induction ops with
  | nil => exact fun lvl h => ⟨h, rfl⟩
  | cons op rest ih =>
    intro lvl hWF
    simp only [List.foldl_cons]
    obtain ⟨h1, h2⟩ := ih (applyOp md5 lvl op) (LevelWF_applyOp md5 lvl op hWF)
    exact ⟨h1, by rw [h2, applyOp_chunk_size]⟩

/-- C7: in a level index built by any sequence of `Index.get` and
`Level.write` operations from an empty index, every stored descriptor's
offset equals its 0-based insertion rank times the chunk size, and a
write to an existing chunk id reuses that chunk id's original offset. -/
theorem C7_offset_rank (md5 : List Nat → String) (cs : Nat) (ops : List IndexOp) :
    (∀ k : Fin (applyOps md5 cs ops).index.entries.length,
      ((applyOps md5 cs ops).index.entries.get k).2.offset = k.1 * cs) ∧
    (∀ (lvl lvl' : Level) (cid : Nat) (d : List Nat) (ch : Chunk),
      lvl.index.lookup cid = some ch → lvl.write md5 cid d = .ok lvl' →
      ∃ ch', lvl'.index.lookup cid = some ch' ∧ ch'.offset = ch.offset) := by
  obtain ⟨hWF, hcs⟩ := applyOps_WF md5 cs ops
  constructor
  · intro k
    have h2 := hWF.1.2 k
    have hcs' : (applyOps md5 cs ops).index.chunk_size = cs := hcs
    rw [h2, hcs']
  · intro lvl lvl' cid d ch hch hw
    refine ⟨_, Level.write_ok_lookup_self lvl lvl' md5 cid d hw, ?_⟩
    show Level.writeOffsetFor lvl cid = ch.offset
    simp only [Level.writeOffsetFor, hch]

/-- Witness for C7 on a concrete operation sequence: get 5, write 2,
get 5 again, rewrite 2 (the rewrite reuses chunk 2's offset). -/
theorem C7_offset_rank_witness :
    ((applyOps md5Test 4 [.getOp 5, .writeOp 2 [1], .getOp 5,
        .writeOp 2 [3, 3]]).index.entries.get ⟨1, by decide⟩).2.offset = 1 * 4 ∧
    (∃ ch', ((oneChunkLevel.write md5Test 0 [7]).toOption.getD oneChunkLevel).index.lookup 0
        = some ch' ∧ ch'.offset = 0) := by
  constructor
  · exact (C7_offset_rank md5Test 4 [.getOp 5, .writeOp 2 [1], .getOp 5,
      .writeOp 2 [3, 3]]).1 ⟨1, by decide⟩
  · obtain ⟨ch', h1, h2⟩ := (C7_offset_rank md5Test 4 []).2 oneChunkLevel
      ((oneChunkLevel.write md5Test 0 [7]).toOption.getD oneChunkLevel) 0 [7]
      ({ checksum := md5Test [9, 9], offset := 0, length := 2, status := 0 })
      (by decide) (by rfl)
    exact ⟨ch', h1, h2⟩

/-! ### The restore walk: characterisation lemmas -/

theorem indexOf_range' :
    ∀ (n s k : Nat), k < n → (List.range' s n).indexOf (s + k) = k
  | n + 1, s, 0, _ => by
    simp [List.range'_succ, List.indexOf_cons_self]
  | n + 1, s, k + 1, hk => by
    rw [List.range'_succ]
    rw [List.indexOf_cons_ne _ (by omega)]
    have := indexOf_range' n (s + 1) k (by omega)
    have harg : s + (k + 1) = (s + 1) + k := by omega
    rw [harg, this]

theorem indexOf_range (n g : Nat) (hg : g < n) : (List.range n).indexOf g = g := by
  rw [List.range_eq_range']
  have := indexOf_range' n 0 g hg
  simpa using this

theorem mapGetD_range_drop (l : List Level) (g : Nat) (dflt : Level) :
    ((List.range l.length).drop g).map (fun i => l.getD i dflt) = l.drop g := by
  apply List.ext_getElem
  · simp
  · intro i h1 h2
    simp only [List.getElem_map, List.getElem_drop, List.getElem_range]
    have hlen : g + i < l.length := by
      simp only [List.length_drop] at h2
      omega
    rw [List.getD_eq_getElem?_getD, List.getElem?_eq_getElem hlen]
    rfl

theorem Archive.restoreWalk_some (arch : Archive) (g : Nat)
    (hg : g < arch.overlays.length) :
    arch.restoreWalk (some g) = arch.overlays.drop g ++ [arch.base] := by
  simp only [Archive.restoreWalk, Archive.get_levels]
  rw [indexOf_range _ _ hg, mapGetD_range_drop]

theorem Archive.restoreWalk_none (arch : Archive) :
    arch.restoreWalk none = [arch.base] := rfl

theorem negOne_fdiv_pos (cs : Int) (hcs : 0 < cs) : (-1 : Int).fdiv cs = -1 := by
  rw [Int.fdiv_eq_ediv _ (le_of_lt hcs)]
  have h := (Int.ediv_emod_unique (a := -1) (b := cs) (r := cs - 1) (q := -1) hcs).mpr
    ⟨by ring, by omega, by omega⟩
  exact h.1

theorem numChunks_int_eq_ceilDiv (L cs : Nat) (hcs : 0 < cs) :
    ((((L : Int) - 1).fdiv (cs : Int)) + 1).toNat = ceilDiv L cs := by
  cases L with
  | zero =>
    show (((0 : Int) - 1).fdiv (cs : Int) + 1).toNat = ceilDiv 0 cs
    rw [show ((0 : Int) - 1) = -1 by ring, negOne_fdiv_pos cs (by exact_mod_cast hcs)]
    show (0 : Int).toNat = ceilDiv 0 cs
    have hz : (0 + cs - 1) / cs = 0 := Nat.div_eq_of_lt (by omega)
    rw [ceilDiv, hz]
    rfl
  | succ n =>
    have hcast : ((n + 1 : Nat) : Int) - 1 = (n : Int) := by push_cast; ring
    rw [hcast, Int.fdiv_eq_ediv _ (by positivity), ← Int.ofNat_ediv]
    rw [show ((n / cs : Nat) : Int) + 1 = ((n / cs + 1 : Nat) : Int) by push_cast; ring]
    rw [Int.toNat_ofNat, ceilDiv]
    have : n + 1 + cs - 1 = n + cs := by omega
    rw [this, Nat.add_div_right n hcs]

theorem Archive.restoreNumChunks_eq (arch : Archive) (lv : Option Nat)
    (hcs : 0 < arch.chunk_size) :
    arch.restoreNumChunks lv
      = ceilDiv ((arch.restoreWalk lv).headD (emptyLevel arch.chunk_size)).size
          arch.chunk_size := by
  rw [Archive.restoreNumChunks]
  exact numChunks_int_eq_ceilDiv _ _ hcs

theorem range_contains_true (n g : Nat) (hg : g < n) :
    (List.range n).contains g = true := by
  rw [List.contains]
  exact List.elem_iff.mpr (List.mem_range.mpr hg)

theorem range_contains_false (n g : Nat) (hg : n ≤ g) :
    (List.range n).contains g = false := by
  rw [List.contains]
  cases h : (List.range n).elem g with
  | true =>
    have := List.elem_iff.mp h
    rw [List.mem_range] at this
    omega
  | false => rfl

/-! ### Characterisation of the read-list loop -/

theorem buildReadList_ok (walk : List Level) :
    ∀ (l : List Nat) (rl : List (Nat × Level)), buildReadList walk l = .ok rl →
      rl.map Prod.fst = l ∧
      ∀ p ∈ rl, walk.find? (fun lv => lv.index.has p.1) = some p.2
  | [], rl, h => by
    cases h
    exact ⟨rfl, fun p hp => absurd hp (List.not_mem_nil p)⟩
  | c :: rest, rl, h => by
    rw [buildReadList] at h
    cases hf : walk.find? (fun lv => lv.index.has c) with
    | none => rw [hf] at h; exact absurd h (by simp)
    | some lvl =>
      rw [hf] at h
      cases hrest : buildReadList walk rest with
      | error e => rw [hrest] at h; exact absurd h (by simp [Except.map])
      | ok rl' =>
        rw [hrest] at h
        have hrl : rl = (c, lvl) :: rl' := by
          simpa [Except.map] using h.symm
        obtain ⟨ih1, ih2⟩ := buildReadList_ok walk rest rl' hrest
        subst hrl
        refine ⟨by simp [ih1], ?_⟩
        intro p hp
        rcases List.mem_cons.mp hp with hh | ht
        · rw [hh]; exact hf
        · exact ih2 p ht

theorem buildReadList_err_iff (walk : List Level) :
    ∀ (l : List Nat),
      (∃ c, buildReadList walk l = .error (.chunkMissing c)) ↔
      ∃ c ∈ l, walk.find? (fun lv => lv.index.has c) = none
  | [] => by
    constructor
    · rintro ⟨c, h⟩
      exact absurd h (by rw [buildReadList]; simp)
    · rintro ⟨c, hc, _⟩
      exact absurd hc (List.not_mem_nil c)
  | c :: rest => by
    rw [buildReadList]
    cases hf : walk.find? (fun lv => lv.index.has c) with
    | none =>
      constructor
      · intro _
        exact ⟨c, List.mem_cons_self c rest, hf⟩
      · intro _
        exact ⟨c, rfl⟩
    | some lvl =>
      constructor
      · rintro ⟨c2, h2⟩
        cases hrest : buildReadList walk rest with
        | error e =>
          rw [hrest] at h2
          have he : e = .chunkMissing c2 := by simpa [Except.map] using h2
          obtain ⟨c3, hc3, hf3⟩ := (buildReadList_err_iff walk rest).mp ⟨c2, by rw [hrest, he]⟩
          exact ⟨c3, List.mem_cons_of_mem c hc3, hf3⟩
        | ok rl' =>
          rw [hrest] at h2
          exact absurd h2 (by simp [Except.map])
      · rintro ⟨c2, hc2, hf2⟩
        rcases List.mem_cons.mp hc2 with hh | ht
        · rw [hh] at hf2
          rw [hf2] at hf
          exact absurd hf (by simp)
        · obtain ⟨c3, h3⟩ := (buildReadList_err_iff walk rest).mpr ⟨c2, ht, hf2⟩
          refine ⟨c3, ?_⟩
          rw [h3]
          rfl

/-! ### Claim C2: the restore read-list construction -/

/-- Modelled from the spec (restore protocol, step 2): the walk list is
`[overlay_g, …, overlay_newest, Base]`, or `[Base]` when `g` is None. -/
def restoreWalkSpec (arch : Archive) (level : Option Nat) : List Level :=
  match level with
  | none => [arch.base]
  | some g => arch.overlays.drop g ++ [arch.base]

/-- C2: restore builds the walk `[overlay_g, …, overlay_newest, Base]`
(`[Base]` for None) after failing with `LevelNotFound` on an
unenumerated level, covers exactly the chunk ids `[0, N)` with
`N = ceil(L / chunk_size)` where `L` is the size of the first level of
the walk, assigns each chunk id to the first level of the walk whose
index contains it, and fails with `ChunkMissing` exactly when some
chunk id below `N` is contained in no walked level. -/
theorem C2_restore_read_list (arch : Archive) (lv : Option Nat)
    (hcs : 0 < arch.chunk_size) :
    (∀ g, lv = some g → arch.overlays.length ≤ g →
      arch.restoreReadList lv = .error .levelNotFound) ∧
    ((match lv with | none => True | some g => g < arch.overlays.length) →
      arch.restoreWalk lv = restoreWalkSpec arch lv ∧
      arch.restoreNumChunks lv
        = ceilDiv ((restoreWalkSpec arch lv).headD (emptyLevel arch.chunk_size)).size
            arch.chunk_size ∧
      (∀ rl, arch.restoreReadList lv = .ok rl →
        rl.map Prod.fst = List.range (arch.restoreNumChunks lv) ∧
        ∀ p ∈ rl, (restoreWalkSpec arch lv).find? (fun l => l.index.has p.1) = some p.2) ∧
      ((∃ c, arch.restoreReadList lv = .error (.chunkMissing c)) ↔
        ∃ c, c < arch.restoreNumChunks lv ∧
          (restoreWalkSpec arch lv).find? (fun l => l.index.has c) = none)) := by
  constructor
  · rintro g rfl hg
    rw [Archive.restoreReadList]
    rw [show (Archive.get_levels arch).contains g = false from
      range_contains_false _ _ hg]
    rfl
  · intro hvalid
    have hwalk : arch.restoreWalk lv = restoreWalkSpec arch lv := by
      cases lv with
      | none => exact arch.restoreWalk_none
      | some g => exact arch.restoreWalk_some g hvalid
    have hrl : arch.restoreReadList lv
        = buildReadList (restoreWalkSpec arch lv)
            (List.range (arch.restoreNumChunks lv)) := by
      cases lv with
      | none =>
        rw [Archive.restoreReadList, hwalk]
      | some g =>
        rw [Archive.restoreReadList]
        rw [show (Archive.get_levels arch).contains g = true from
          range_contains_true _ _ hvalid]
        rw [hwalk]
        rfl
    refine ⟨hwalk, by rw [← hwalk]; exact arch.restoreNumChunks_eq lv hcs, ?_, ?_⟩
    · intro rl hok
      rw [hrl] at hok
      exact buildReadList_ok (restoreWalkSpec arch lv) _ rl hok
    · rw [hrl, buildReadList_err_iff]
      constructor
      · rintro ⟨c, hc, hf⟩
        exact ⟨c, List.mem_range.mp hc, hf⟩
      · rintro ⟨c, hc, hf⟩
        exact ⟨c, List.mem_range.mpr hc, hf⟩

/-- A concrete two-level archive used by witnesses: one empty overlay
and a one-chunk base. -/
def archW : Archive :=
  { chunk_size := 4, base := oneChunkLevel, overlays := [emptyLevel 4] }

/-- Witness for C2 at the concrete archive, generation 0. -/
theorem C2_restore_read_list_witness :
    0 < archW.chunk_size ∧
    (archW.restoreWalk (some 0) = restoreWalkSpec archW (some 0) ∧
      archW.restoreNumChunks (some 0)
        = ceilDiv ((restoreWalkSpec archW (some 0)).headD
            (emptyLevel archW.chunk_size)).size archW.chunk_size ∧
      (∀ rl, archW.restoreReadList (some 0) = .ok rl →
        rl.map Prod.fst = List.range (archW.restoreNumChunks (some 0)) ∧
        ∀ p ∈ rl, (restoreWalkSpec archW (some 0)).find?
          (fun l => l.index.has p.1) = some p.2) ∧
      ((∃ c, archW.restoreReadList (some 0) = .error (.chunkMissing c)) ↔
        ∃ c, c < archW.restoreNumChunks (some 0) ∧
          (restoreWalkSpec archW (some 0)).find? (fun l => l.index.has c) = none)) :=
  ⟨by decide, (C2_restore_read_list archW (some 0) (by decide)).2 (by decide)⟩

/-! ### Claim C9: restore independence from older overlays -/

/-- C9: restoring generation `j` never reads an overlay below `j` — the
result of `restore(target, j)` is a function only of overlays
`j, …, newest` and Base, so two archives agreeing on those levels (and
on the chunk size and number of overlays) restore identically. -/
theorem C9_restore_independence (md5 : List Nat → String) (A B : Archive) (j : Nat)
    (hcs : A.chunk_size = B.chunk_size) (hbase : A.base = B.base)
    (hlen : A.overlays.length = B.overlays.length)
    (hdrop : A.overlays.drop j = B.overlays.drop j) :
    A.restore md5 (some j) = B.restore md5 (some j) := by
  show (A.restoreReadList (some j) >>= fun rl => restoreStream md5 A.chunk_size [] rl)
    = (B.restoreReadList (some j) >>= fun rl => restoreStream md5 B.chunk_size [] rl)
  by_cases hj : j < A.overlays.length
  · have hjB : j < B.overlays.length := by omega
    have hwalk : A.restoreWalk (some j) = B.restoreWalk (some j) := by
      rw [A.restoreWalk_some j hj, B.restoreWalk_some j hjB, hdrop, hbase]
    have hnum : A.restoreNumChunks (some j) = B.restoreNumChunks (some j) := by
      rw [Archive.restoreNumChunks, Archive.restoreNumChunks, hwalk, hcs]
    have hrl : A.restoreReadList (some j) = B.restoreReadList (some j) := by
      rw [Archive.restoreReadList, Archive.restoreReadList]
      rw [show (Archive.get_levels A).contains j = true from
        range_contains_true _ _ hj]
      rw [show (Archive.get_levels B).contains j = true from
        range_contains_true _ _ hjB]
      rw [hwalk, hnum]
    rw [hrl, hcs]
  · have hjB : ¬ j < B.overlays.length := by omega
    have hrlA : A.restoreReadList (some j) = .error .levelNotFound := by
      rw [Archive.restoreReadList]
      rw [show (Archive.get_levels A).contains j = false from
        range_contains_false _ _ (by omega)]
      rfl
    have hrlB : B.restoreReadList (some j) = .error .levelNotFound := by
      rw [Archive.restoreReadList]
      rw [show (Archive.get_levels B).contains j = false from
        range_contains_false _ _ (by omega)]
      rfl
    rw [hrlA, hrlB]
    rfl

/-- A variant of `archW` that differs only in overlay 0. -/
def archW2 : Archive :=
  { chunk_size := 4, base := oneChunkLevel, overlays := [oneChunkLevel] }

/-- Witness for C9: two archives differing only in overlay 0, restored
at generation 1. -/
theorem C9_restore_independence_witness :
    archW.chunk_size = archW2.chunk_size ∧
    archW.restore md5Test (some 1) = archW2.restore md5Test (some 1) :=
  ⟨rfl, C9_restore_independence md5Test archW archW2 1 rfl rfl rfl rfl⟩

/-! ### Forward evaluation and inversion of the backup loop -/

theorem exceptBind_pure {α β ε : Type} (a : α) (f : α → Except ε β) :
    ((pure a : Except ε α) >>= f) = f a := rfl

theorem exceptBind_throw {α β ε : Type} (e : ε) (f : α → Except ε β) :
    ((throw e : Except ε α) >>= f) = .error e := rfl

theorem exceptMap_ok {α β ε : Type} (a : α) (f : α → β) :
    (f <$> (Except.ok a : Except ε α)) = .ok (f a) := rfl

theorem exceptMap_err {α β ε : Type} (e : ε) (f : α → β) :
    (f <$> (Except.error e : Except ε α)) = .error e := rfl

theorem Level.read_false_error (lvl : Level) (md5 : List Nat → String) (c : Nat)
    (e : BackyErr) (h : lvl.read md5 c false = .error e) : e = .chunkNotFound := by
  cases hl : lvl.index.lookup c with
  | some ch =>
    rw [Level.read_nonstrict lvl md5 c ch hl] at h
    exact absurd h (by simp)
  | none =>
    rw [Level.read_notfound lvl md5 c false hl] at h
    cases h
    rfl

theorem backupEvict_read_ok (md5 : List Nat → String) (b nx : Level) (c : Nat)
    (data old : List Nat) (hread : b.read md5 c false = .ok old) :
    backupEvict md5 b nx c data =
      (nx.write md5 c old >>= fun next' =>
        b.write md5 c data >>= fun base' => pure (base', next')) := by
  unfold backupEvict
  rw [hread]

theorem backupEvict_read_notfound (md5 : List Nat → String) (b nx : Level) (c : Nat)
    (data : List Nat) (hread : b.read md5 c false = .error .chunkNotFound) :
    backupEvict md5 b nx c data =
      (b.write md5 c data >>= fun base' => pure (base', nx)) := by
  unfold backupEvict
  rw [hread]
  rfl

theorem backupChunk_empty (md5 : List Nat → String) (cs : Nat) (source : List Nat)
    (st : Level × Level) (c : Nat)
    (hemp : ((source.drop (c * cs)).take cs).isEmpty = true) :
    backupChunk md5 cs source st c = .error .unexpectedEOF := by
  simp only [backupChunk, hemp]
  rfl

theorem backupChunk_skip (md5 : List Nat → String) (cs : Nat) (source : List Nat)
    (st : Level × Level) (c : Nat) (meta : Chunk)
    (hemp : ((source.drop (c * cs)).take cs).isEmpty = false)
    (hmeta : st.1.read_meta c = .ok meta)
    (hsum : md5 ((source.drop (c * cs)).take cs) = meta.checksum) :
    backupChunk md5 cs source st c = .ok st := by
  simp only [backupChunk, hemp, hmeta, Bool.false_eq_true, if_neg, not_false_iff,
    exceptBind_pure]
  rw [if_pos hsum]
  rfl

theorem backupChunk_evict_meta (md5 : List Nat → String) (cs : Nat) (source : List Nat)
    (st : Level × Level) (c : Nat) (meta : Chunk)
    (hemp : ((source.drop (c * cs)).take cs).isEmpty = false)
    (hmeta : st.1.read_meta c = .ok meta)
    (hsum : md5 ((source.drop (c * cs)).take cs) ≠ meta.checksum) :
    backupChunk md5 cs source st c
      = backupEvict md5 st.1 st.2 c ((source.drop (c * cs)).take cs) := by
  simp only [backupChunk, hemp, hmeta, Bool.false_eq_true, if_neg, not_false_iff,
    exceptBind_pure]
  rw [if_neg hsum]

theorem backupChunk_evict_nometa (md5 : List Nat → String) (cs : Nat) (source : List Nat)
    (st : Level × Level) (c : Nat) (e : BackyErr)
    (hemp : ((source.drop (c * cs)).take cs).isEmpty = false)
    (hmeta : st.1.read_meta c = .error e) :
    backupChunk md5 cs source st c
      = backupEvict md5 st.1 st.2 c ((source.drop (c * cs)).take cs) := by
  simp only [backupChunk, hemp, hmeta, Bool.false_eq_true, if_neg, not_false_iff,
    exceptBind_pure]

theorem backupEvict_ok_inv (md5 : List Nat → String) (b nx : Level) (c : Nat)
    (data : List Nat) (st' : Level × Level)
    (h : backupEvict md5 b nx c data = .ok st') :
    b.write md5 c data = .ok st'.1 ∧
    ((∃ old, b.read md5 c false = .ok old ∧ nx.write md5 c old = .ok st'.2) ∨
      (b.read md5 c false = .error .chunkNotFound ∧ st'.2 = nx)) := by
  cases hread : b.read md5 c false with
  | ok old =>
    rw [backupEvict_read_ok md5 b nx c data old hread] at h
    cases hw : nx.write md5 c old with
    | error e => rw [hw, exceptBind_err] at h; exact absurd h (by simp)
    | ok nx' =>
      rw [hw, exceptBind_ok] at h
      cases hwb : b.write md5 c data with
      | error e => rw [hwb, exceptBind_err] at h; exact absurd h (by simp)
      | ok b' =>
        rw [hwb, exceptBind_ok] at h
        obtain rfl : st' = (b', nx') := (Except.ok.inj h).symm
        exact ⟨rfl, Or.inl ⟨old, rfl, hw⟩⟩
  | error e =>
    have he := Level.read_false_error b md5 c e hread
    subst he
    rw [backupEvict_read_notfound md5 b nx c data hread] at h
    cases hwb : b.write md5 c data with
    | error e2 => rw [hwb, exceptBind_err] at h; exact absurd h (by simp)
    | ok b' =>
      rw [hwb, exceptBind_ok] at h
      obtain rfl : st' = (b', nx) := (Except.ok.inj h).symm
      exact ⟨rfl, Or.inr ⟨rfl, rfl⟩⟩

theorem backupChunk_ok_inv (md5 : List Nat → String) (cs : Nat) (source : List Nat)
    (st st' : Level × Level) (c : Nat)
    (h : backupChunk md5 cs source st c = .ok st') :
    ((source.drop (c * cs)).take cs).isEmpty = false ∧
    (st' = st ∨
      backupEvict md5 st.1 st.2 c ((source.drop (c * cs)).take cs) = .ok st') := by
  cases hemp : ((source.drop (c * cs)).take cs).isEmpty with
  | true =>
    rw [backupChunk_empty md5 cs source st c hemp] at h
    exact absurd h (by simp)
  | false =>
    refine ⟨rfl, ?_⟩
    cases hmeta : st.1.read_meta c with
    | ok meta =>
      by_cases hsum : md5 ((source.drop (c * cs)).take cs) = meta.checksum
      · rw [backupChunk_skip md5 cs source st c meta hemp hmeta hsum] at h
        cases h
        exact Or.inl rfl
      · rw [backupChunk_evict_meta md5 cs source st c meta hemp hmeta hsum] at h
        exact Or.inr h
    | error e =>
      rw [backupChunk_evict_nometa md5 cs source st c e hemp hmeta] at h
      exact Or.inr h

theorem backupChunk_ok_sizes (md5 : List Nat → String) (cs : Nat) (source : List Nat)
    (st st' : Level × Level) (c : Nat) (h : backupChunk md5 cs source st c = .ok st') :
    st'.1.index.size = st.1.index.size ∧ st'.2.index.size = st.2.index.size ∧
    st'.1.index.chunk_size = st.1.index.chunk_size ∧
    st'.2.index.chunk_size = st.2.index.chunk_size := by
  rcases (backupChunk_ok_inv md5 cs source st st' c h).2 with heq | hev
  · subst heq
    exact ⟨rfl, rfl, rfl, rfl⟩
  · obtain ⟨hwb, hnx⟩ := backupEvict_ok_inv md5 st.1 st.2 c _ st' hev
    obtain ⟨h1, h2⟩ := Level.write_ok_size _ _ md5 c _ hwb
    rcases hnx with ⟨old, _, hw⟩ | ⟨_, hid⟩
    · obtain ⟨h3, h4⟩ := Level.write_ok_size _ _ md5 c _ hw
      exact ⟨h1, h3, h2, h4⟩
    · rw [hid]
      exact ⟨h1, rfl, h2, rfl⟩

theorem backupLoop_ok_sizes (md5 : List Nat → String) (cs : Nat) (source : List Nat) :
    ∀ (l : List Nat) (st st' : Level × Level),
      backupLoop md5 cs source st l = .ok st' →
      st'.1.index.size = st.1.index.size ∧ st'.2.index.size = st.2.index.size ∧
      st'.1.index.chunk_size = st.1.index.chunk_size ∧
      st'.2.index.chunk_size = st.2.index.chunk_size
  | [], st, st', h => by
    cases h
    exact ⟨rfl, rfl, rfl, rfl⟩
  | c :: rest, st, st', h => by
    rw [backupLoop] at h
    cases hc : backupChunk md5 cs source st c with
    | error e => rw [hc] at h; exact absurd h (by simp [exceptBind_err])
    | ok st1 =>
      rw [hc, exceptBind_ok] at h
      obtain ⟨a1, a2, a3, a4⟩ := backupChunk_ok_sizes md5 cs source st st1 c hc
      obtain ⟨b1, b2, b3, b4⟩ := backupLoop_ok_sizes md5 cs source rest st1 st' h
      exact ⟨by omega, by omega, by omega, by omega⟩

/-- Inversion of a successful `Archive.backup`: the old base size did
not exceed the source length, and the result is the loop's final state
appended as a new overlay. -/
theorem backup_ok_inv (md5 : List Nat → String) (A : Archive) (source : List Nat)
    (hints : Option (List (Nat × Nat))) (A' : Archive)
    (h : A.backup md5 source hints = .ok A') :
    A.base.size ≤ source.length ∧
    ∃ st : Level × Level,
      backupLoop md5 A.chunk_size source
        ({ A.base with index := { A.base.index with size := source.length } },
          { index := { chunk_size := A.chunk_size, size := A.base.size } })
        (backupReadChunks A.chunk_size source.length hints) = .ok st ∧
      A' = { A with base := st.1, overlays := A.overlays ++ [st.2] } := by
  have hnext : (emptyLevel A.chunk_size).set_size A.base.size
      = .ok { index := { chunk_size := A.chunk_size, size := A.base.size } } :=
    Level.set_size_ok _ _ (Nat.zero_le _)
  rw [Archive.backup, hnext, exceptBind_ok] at h
  cases hbs : A.base.set_size source.length with
  | error e =>
    rw [hbs] at h
    exact absurd h (by simp [exceptBind_err])
  | ok base_level =>
    have hle : A.base.size ≤ source.length := by
      by_contra hc
      rw [(Level.set_size_err_iff A.base source.length).mpr (by omega)] at hbs
      exact absurd hbs (by simp)
    have hbase : base_level
        = { A.base with index := { A.base.index with size := source.length } } := by
      have h2 := Level.set_size_ok A.base source.length
        (by simp only [Level.size] at hle; omega)
      rw [hbs] at h2
      exact Except.ok.inj h2
    rw [hbs, exceptBind_ok] at h
    refine ⟨hle, ?_⟩
    -- discharge the hint-validation guard
    by_cases h1 : (hints.getD []).isEmpty = false
    · rw [if_pos h1] at h
      by_cases h2 : ((hints.getD []).map (fun h => h.1 + h.2)).foldl max 0 > source.length
      · rw [if_pos h2] at h
        exact absurd h (by simp [exceptBind_throw])
      · rw [if_neg h2, exceptBind_pure] at h
        beta_reduce at h
        cases hloop : backupLoop md5 A.chunk_size source
            (base_level, { index := { chunk_size := A.chunk_size, size := A.base.size } })
            (backupReadChunks A.chunk_size source.length hints) with
        | error e =>
          simp only [hloop, exceptMap_err, exceptBind_err] at h
          exact absurd h (by simp)
        | ok st =>
          simp only [hloop, exceptMap_ok, exceptBind_ok] at h
          refine ⟨st, ?_, (Except.ok.inj h).symm⟩
          rw [← hbase]
          exact hloop
    · rw [if_neg h1, exceptBind_pure] at h
      beta_reduce at h
      cases hloop : backupLoop md5 A.chunk_size source
          (base_level, { index := { chunk_size := A.chunk_size, size := A.base.size } })
          (backupReadChunks A.chunk_size source.length hints) with
      | error e =>
        simp only [hloop, exceptMap_err, exceptBind_err] at h
        exact absurd h (by simp)
      | ok st =>
        simp only [hloop, exceptMap_ok, exceptBind_ok] at h
        refine ⟨st, ?_, (Except.ok.inj h).symm⟩
        rw [← hbase]
        exact hloop

/-! ### Claim C8: monotone sizes -/

/-- The recorded sizes of an archive, oldest overlay first, base last. -/
def archSizes (A : Archive) : List Nat :=
  A.overlays.map Level.size ++ [A.base.size]

/-- A sequence of backups (each with its own hints), as issued by
repeated CLI invocations. -/
def backupSeqH (md5 : List Nat → String) (A : Archive) :
    List (List Nat × Option (List (Nat × Nat))) → Except BackyErr Archive
  | [] => .ok A
  | p :: rest => (A.backup md5 p.1 p.2) >>= fun A1 => backupSeqH md5 A1 rest

theorem backup_ok_pairwise (md5 : List Nat → String) (A : Archive) (source : List Nat)
    (hints : Option (List (Nat × Nat))) (A' : Archive)
    (h : A.backup md5 source hints = .ok A')
    (hp : List.Pairwise (· ≤ ·) (archSizes A)) :
    List.Pairwise (· ≤ ·) (archSizes A') := by
  obtain ⟨hle, st, hloop, hA'⟩ := backup_ok_inv md5 A source hints A' h
  have hsz := backupLoop_ok_sizes md5 A.chunk_size source _ _ _ hloop
  have h1 : st.1.size = source.length := hsz.1
  have h2 : st.2.size = A.base.size := hsz.2.1
  subst hA'
  show List.Pairwise (· ≤ ·) (archSizes { A with base := st.1, overlays := A.overlays ++ [st.2] })
  have harch : archSizes { A with base := st.1, overlays := A.overlays ++ [st.2] }
      = A.overlays.map Level.size ++ [st.2.size, st.1.size] := by
    show (A.overlays ++ [st.2]).map Level.size ++ [st.1.size] = _
    rw [List.map_append, List.append_assoc]
    rfl
  rw [harch, h1, h2]
  rw [archSizes, List.pairwise_append] at hp
  rw [List.pairwise_append]
  refine ⟨hp.1, ?_, ?_⟩
  · refine List.pairwise_cons.mpr ⟨?_, List.pairwise_singleton _ _⟩
    intro b hb
    have hbs : b = source.length := by simpa using hb
    rw [hbs]
    exact hle
  · intro a ha b hb
    have hax : a ≤ A.base.size := hp.2.2 a ha A.base.size (by simp)
    rcases List.mem_cons.mp hb with hb1 | hb2
    · rw [hb1]; exact hax
    · have : b = source.length := by simpa using hb2
      rw [this]
      exact le_trans hax hle

theorem backupSeqH_pairwise (md5 : List Nat → String) :
    ∀ (inputs : List (List Nat × Option (List (Nat × Nat)))) (A A' : Archive),
      List.Pairwise (· ≤ ·) (archSizes A) → backupSeqH md5 A inputs = .ok A' →
      List.Pairwise (· ≤ ·) (archSizes A')
  | [], A, A', hp, h => by
    cases h
    exact hp
  | p :: rest, A, A', hp, h => by
    rw [backupSeqH] at h
    cases hb : A.backup md5 p.1 p.2 with
    | error e => rw [hb, exceptBind_err] at h; exact absurd h (by simp)
    | ok A1 =>
      rw [hb, exceptBind_ok] at h
      exact backupSeqH_pairwise md5 rest A1 A'
        (backup_ok_pairwise md5 A p.1 p.2 A1 hb hp) h

/-- C8: after any sequence of successful backups from an empty archive,
the recorded sizes are monotone
(`overlay_0.size ≤ … ≤ overlay_newest.size ≤ Base.size`), and
`set_size(n)` refuses with `ShrinkUnsupported` exactly when `n` is
smaller than the current size. -/
theorem C8_monotone_sizes (md5 : List Nat → String) (cs : Nat)
    (inputs : List (List Nat × Option (List (Nat × Nat)))) (A' : Archive)
    (h : backupSeqH md5 (emptyArchive cs) inputs = .ok A') :
    List.Pairwise (· ≤ ·) (archSizes A') ∧
    (∀ (lvl : Level) (n : Nat),
      lvl.set_size n = .error .shrinkUnsupported ↔ n < lvl.size) := by
  refine ⟨?_, fun lvl n => Level.set_size_err_iff lvl n⟩
  apply backupSeqH_pairwise md5 inputs (emptyArchive cs) A' _ h
  show List.Pairwise (· ≤ ·) [(0 : Nat)]
  exact List.pairwise_singleton _ _

/-- Witness for C8: two growing backups with chunk size 2. -/
theorem C8_monotone_sizes_witness :
    backupSeqH md5Test (emptyArchive 2) [([1, 2, 3], none), ([1, 2, 3, 4, 5], none)]
      = .ok ((backupSeqH md5Test (emptyArchive 2)
          [([1, 2, 3], none), ([1, 2, 3, 4, 5], none)]).toOption.getD (emptyArchive 2)) ∧
    (List.Pairwise (· ≤ ·) (archSizes ((backupSeqH md5Test (emptyArchive 2)
        [([1, 2, 3], none), ([1, 2, 3, 4, 5], none)]).toOption.getD (emptyArchive 2))) ∧
      (∀ (lvl : Level) (n : Nat),
        lvl.set_size n = .error .shrinkUnsupported ↔ n < lvl.size)) :=
  ⟨by rfl, C8_monotone_sizes md5Test 2 [([1, 2, 3], none), ([1, 2, 3, 4, 5], none)] _ (by rfl)⟩

/-! ### Claim C4: idempotent backup -/

theorem backupChunk_ok_checksum (md5 : List Nat → String) (cs : Nat) (source : List Nat)
    (st st' : Level × Level) (c : Nat)
    (h : backupChunk md5 cs source st c = .ok st') :
    ∃ ch, st'.1.index.lookup c = some ch ∧
      ch.checksum = md5 ((source.drop (c * cs)).take cs) := by
  cases hemp : ((source.drop (c * cs)).take cs).isEmpty with
  | true =>
    rw [backupChunk_empty md5 cs source st c hemp] at h
    exact absurd h (by simp)
  | false =>
    cases hmeta : st.1.read_meta c with
    | ok meta =>
      by_cases hsum : md5 ((source.drop (c * cs)).take cs) = meta.checksum
      · rw [backupChunk_skip md5 cs source st c meta hemp hmeta hsum] at h
        have hsteq : st' = st := (Except.ok.inj h).symm
        rw [hsteq]
        have hlk : st.1.index.lookup c = some meta := by
          rw [Level.read_meta] at hmeta
          cases hl : st.1.index.lookup c with
          | some ch2 => rw [hl] at hmeta; cases hmeta; rfl
          | none => rw [hl] at hmeta; exact absurd hmeta (by simp)
        exact ⟨meta, hlk, hsum.symm⟩
      · rw [backupChunk_evict_meta md5 cs source st c meta hemp hmeta hsum] at h
        obtain ⟨hwb, _⟩ := backupEvict_ok_inv md5 st.1 st.2 c _ st' h
        exact ⟨_, Level.write_ok_lookup_self _ _ md5 c _ hwb, rfl⟩
    | error e =>
      rw [backupChunk_evict_nometa md5 cs source st c e hemp hmeta] at h
      obtain ⟨hwb, _⟩ := backupEvict_ok_inv md5 st.1 st.2 c _ st' h
      exact ⟨_, Level.write_ok_lookup_self _ _ md5 c _ hwb, rfl⟩

theorem backupChunk_ok_lookup_ne (md5 : List Nat → String) (cs : Nat) (source : List Nat)
    (st st' : Level × Level) (c' c : Nat) (hne : c ≠ c')
    (h : backupChunk md5 cs source st c' = .ok st') :
    st'.1.index.lookup c = st.1.index.lookup c := by
  rcases (backupChunk_ok_inv md5 cs source st st' c' h).2 with heq | hev
  · rw [heq]
  · obtain ⟨hwb, _⟩ := backupEvict_ok_inv md5 st.1 st.2 c' _ st' hev
    exact Level.write_ok_lookup_ne _ _ md5 c' _ c hne hwb

theorem backupLoop_checksum_preserve (md5 : List Nat → String) (cs : Nat)
    (source : List Nat) (c : Nat) :
    ∀ (l : List Nat) (st st' : Level × Level),
      backupLoop md5 cs source st l = .ok st' →
      (∃ ch, st.1.index.lookup c = some ch ∧
        ch.checksum = md5 ((source.drop (c * cs)).take cs)) →
      (∃ ch, st'.1.index.lookup c = some ch ∧
        ch.checksum = md5 ((source.drop (c * cs)).take cs))
  | [], st, st', h, hp => by
    cases h
    exact hp
  | c' :: rest, st, st', h, hp => by
    rw [backupLoop] at h
    cases hc : backupChunk md5 cs source st c' with
    | error e => rw [hc, exceptBind_err] at h; exact absurd h (by simp)
    | ok st1 =>
      rw [hc, exceptBind_ok] at h
      by_cases hcc : c = c'
      · subst hcc
        exact backupLoop_checksum_preserve md5 cs source c rest st1 st' h
          (backupChunk_ok_checksum md5 cs source st st1 c hc)
      · refine backupLoop_checksum_preserve md5 cs source c rest st1 st' h ?_
        rw [backupChunk_ok_lookup_ne md5 cs source st st1 c' c hcc hc]
        exact hp

theorem backupLoop_checksums (md5 : List Nat → String) (cs : Nat) (source : List Nat) :
    ∀ (l : List Nat) (st st' : Level × Level),
      backupLoop md5 cs source st l = .ok st' →
      ∀ c ∈ l, ∃ ch, st'.1.index.lookup c = some ch ∧
        ch.checksum = md5 ((source.drop (c * cs)).take cs)
  | [], st, st', _, c, hc => absurd hc (List.not_mem_nil c)
  | c' :: rest, st, st', h, c, hc => by
    rw [backupLoop] at h
    cases hch : backupChunk md5 cs source st c' with
    | error e => rw [hch, exceptBind_err] at h; exact absurd h (by simp)
    | ok st1 =>
      rw [hch, exceptBind_ok] at h
      rcases List.mem_cons.mp hc with hh | ht
      · subst hh
        exact backupLoop_checksum_preserve md5 cs source c rest st1 st' h
          (backupChunk_ok_checksum md5 cs source st st1 c hch)
      · exact backupLoop_checksums md5 cs source rest st1 st' h c ht

theorem backupLoop_ok_nonempty (md5 : List Nat → String) (cs : Nat) (source : List Nat) :
    ∀ (l : List Nat) (st st' : Level × Level),
      backupLoop md5 cs source st l = .ok st' →
      ∀ c ∈ l, ((source.drop (c * cs)).take cs).isEmpty = false
  | [], st, st', _, c, hc => absurd hc (List.not_mem_nil c)
  | c' :: rest, st, st', h, c, hc => by
    rw [backupLoop] at h
    cases hch : backupChunk md5 cs source st c' with
    | error e => rw [hch, exceptBind_err] at h; exact absurd h (by simp)
    | ok st1 =>
      rw [hch, exceptBind_ok] at h
      rcases List.mem_cons.mp hc with hh | ht
      · subst hh
        exact (backupChunk_ok_inv md5 cs source st st1 c hch).1
      · exact backupLoop_ok_nonempty md5 cs source rest st1 st' h c ht

theorem backupLoop_all_skip (md5 : List Nat → String) (cs : Nat) (source : List Nat)
    (st : Level × Level) :
    ∀ (l : List Nat),
      (∀ c ∈ l, ((source.drop (c * cs)).take cs).isEmpty = false ∧
        ∃ ch, st.1.index.lookup c = some ch ∧
          md5 ((source.drop (c * cs)).take cs) = ch.checksum) →
      backupLoop md5 cs source st l = .ok st
  | [], _ => rfl
  | c :: rest, h => by
    obtain ⟨hemp, ch, hlk, hsum⟩ := h c (List.mem_cons_self c rest)
    rw [backupLoop,
      backupChunk_skip md5 cs source st c ch hemp (Level.read_meta_some _ _ _ hlk) hsum,
      exceptBind_ok]
    exact backupLoop_all_skip md5 cs source st rest
      (fun c' hc' => h c' (List.mem_cons_of_mem c hc'))

/-- Forward computation of `Archive.backup` with no hints, given the
loop's result. -/
theorem backup_none_eq (md5 : List Nat → String) (A : Archive) (source : List Nat)
    (hble : A.base.size ≤ source.length) (st : Level × Level)
    (hloop : backupLoop md5 A.chunk_size source
      ({ A.base with index := { A.base.index with size := source.length } },
        { index := { chunk_size := A.chunk_size, size := A.base.size } })
      (backupReadChunks A.chunk_size source.length none) = .ok st) :
    A.backup md5 source none
      = .ok { A with base := st.1, overlays := A.overlays ++ [st.2] } := by
  have hnext : (emptyLevel A.chunk_size).set_size A.base.size
      = .ok { index := { chunk_size := A.chunk_size, size := A.base.size } } :=
    Level.set_size_ok _ _ (Nat.zero_le _)
  have hbase : A.base.set_size source.length
      = .ok { A.base with index := { A.base.index with size := source.length } } :=
    Level.set_size_ok _ _ (by simp only [Level.size] at hble; omega)
  unfold Archive.backup
  simp only [hnext, hbase, exceptBind_ok, Option.getD_none, List.isEmpty_nil]
  rw [if_neg (by simp)]
  rw [exceptBind_pure]
  simp only [hloop, exceptBind_ok, exceptMap_ok]
  rfl

/-- C4: backing up the same image twice in a row (no hints, identical
bytes) appends a second overlay whose index has `size = S` and no
descriptor entries and whose data file is empty, and leaves the base
level — index contents and data-file bytes — unchanged. -/
theorem C4_idempotent_backup (md5 : List Nat → String) (A A1 : Archive)
    (source : List Nat) (h : A.backup md5 source none = .ok A1) :
    A1.backup md5 source none = .ok
      { A1 with overlays := A1.overlays ++
          [{ index := { chunk_size := A1.chunk_size, size := source.length } }] } := by
  obtain ⟨hle, st, hloop, hA1⟩ := backup_ok_inv md5 A source none A1 h
  have hsz1 : st.1.index.size = source.length :=
    (backupLoop_ok_sizes md5 A.chunk_size source _ _ _ hloop).1
  have hA1base : A1.base = st.1 := by rw [hA1]
  have hA1cs : A1.chunk_size = A.chunk_size := by rw [hA1]
  have hbsize : A1.base.index.size = source.length := by rw [hA1base]; exact hsz1
  have hsums := backupLoop_checksums md5 A.chunk_size source _ _ _ hloop
  have hnemp := backupLoop_ok_nonempty md5 A.chunk_size source _ _ _ hloop
  have hloop2 : backupLoop md5 A1.chunk_size source
      ({ A1.base with index := { A1.base.index with size := source.length } },
        { index := { chunk_size := A1.chunk_size, size := A1.base.size } })
      (backupReadChunks A1.chunk_size source.length none) = .ok
      ({ A1.base with index := { A1.base.index with size := source.length } },
        { index := { chunk_size := A1.chunk_size, size := A1.base.size } }) := by
    apply backupLoop_all_skip
    intro c hc
    rw [hA1cs]
    have hc2 : c ∈ List.range (ceilDiv source.length A.chunk_size) := by
      rw [hA1cs] at hc
      exact hc
    obtain ⟨ch, hlk, hck⟩ := hsums c hc2
    refine ⟨hnemp c hc2, ch, ?_, hck.symm⟩
    show ({ A1.base with index := { A1.base.index with size := source.length } } :
      Level).index.lookup c = some ch
    rw [show ({ A1.base with index := { A1.base.index with size := source.length } } :
      Level).index.lookup c = A1.base.index.lookup c from rfl]
    rw [hA1base]
    exact hlk
  have heq := backup_none_eq md5 A1 source
    (by simp only [Level.size]; omega) _ hloop2
  rw [heq]
  have hmod : ({ A1.base with index := { A1.base.index with size := source.length } } :
      Level) = A1.base := by
    rw [← hbsize]
  have hlvlsize : A1.base.size = source.length := hbsize
  rw [hmod, hlvlsize]

/-- Witness for C4 at a concrete first backup. -/
theorem C4_idempotent_backup_witness :
    ((emptyArchive 2).backup md5Test [5, 6, 7] none)
      = .ok (((emptyArchive 2).backup md5Test [5, 6, 7] none).toOption.getD
          (emptyArchive 2)) ∧
    (((emptyArchive 2).backup md5Test [5, 6, 7] none).toOption.getD
        (emptyArchive 2)).backup md5Test [5, 6, 7] none = .ok
      { ((emptyArchive 2).backup md5Test [5, 6, 7] none).toOption.getD (emptyArchive 2) with
          overlays := (((emptyArchive 2).backup md5Test [5, 6, 7] none).toOption.getD
            (emptyArchive 2)).overlays ++
            [{ index := { chunk_size := (((emptyArchive 2).backup md5Test [5, 6, 7]
                none).toOption.getD (emptyArchive 2)).chunk_size, size := 3 } }] } :=
  ⟨by rfl, C4_idempotent_backup md5Test (emptyArchive 2) _ [5, 6, 7] (by rfl)⟩

/-! ### Claim C1: round-trip of a backup sequence -/

/-- The walk of levels used when restoring generation `g` (0-based):
overlays `g, …, newest`, then the base level. -/
def walkFrom (A : Archive) (g : Nat) : List Level :=
  A.overlays.drop g ++ [A.base]

/-- The image as of generation `g` in a backed-up sequence: generation
`0` is the pristine empty state, generation `g ≥ 1` is the `g`-th image
backed up. -/
def imageAt (imgs : List (List Nat)) (g : Nat) : List Nat :=
  if g = 0 then [] else imgs.getD (g - 1) []

/-- `walk` recovers `img` chunk-by-chunk: every chunk id of `img` is
found in the walk, and the first level holding it stores exactly the
image's bytes for that chunk. -/
def Represents (cs : Nat) (walk : List Level) (img : List Nat) : Prop :=
  ∀ c, c < ceilDiv img.length cs →
    ∃ lvl, walk.find? (fun l => l.index.has c) = some lvl ∧
      lvl.chunkData c = chunkOf cs img c

/-- Every checksum recorded in the level's index is the digest of the
bytes currently stored for that chunk. -/
def ChecksumOK (md5 : List Nat → String) (lvl : Level) : Prop :=
  ∀ c ch, lvl.index.lookup c = some ch → ch.checksum = md5 (lvl.chunkData c)

/-- Invariant tying an archive to the sequence of images backed up into
it (no hints, starting from a fresh archive). -/
def ArchInv (md5 : List Nat → String) (cs : Nat) (imgs : List (List Nat))
    (A : Archive) : Prop :=
  A.chunk_size = cs ∧
  A.overlays.length = imgs.length ∧
  A.base.size = (imageAt imgs imgs.length).length ∧
  LevelWF A.base ∧
  A.base.chunk_size = cs ∧
  ChecksumOK md5 A.base ∧
  (∀ g, g ≤ imgs.length → (imageAt imgs g).length ≤ A.base.size) ∧
  (∀ g, g ≤ imgs.length →
    ((walkFrom A g).headD (emptyLevel cs)).size = (imageAt imgs g).length) ∧
  (∀ g, g ≤ imgs.length → Represents cs (walkFrom A g) (imageAt imgs g))

/-- A sequence of plain (hint-less) backups, as issued by repeated CLI
invocations of the backup command. -/
def backupSeqPlain (md5 : List Nat → String) (A : Archive) :
    List (List Nat) → Except BackyErr Archive
  | [] => .ok A
  | src :: rest => (A.backup md5 src none) >>= fun A1 => backupSeqPlain md5 A1 rest

theorem headD_append_of_ne_nil (xs ys : List Level) (d : Level) (h : xs ≠ []) :
    (xs ++ ys).headD d = xs.headD d := by
  cases xs with
  | nil => exact absurd rfl h
  | cons a t => rfl

theorem drop_ne_nil_of_lt (l : List Level) (g : Nat) (h : g < l.length) :
    l.drop g ≠ [] := by
  intro hc
  have := congrArg List.length hc
  simp only [List.length_drop, List.length_nil] at this
  omega

theorem imageAt_append_le (imgs : List (List Nat)) (src : List Nat) (g : Nat)
    (hg : g ≤ imgs.length) : imageAt (imgs ++ [src]) g = imageAt imgs g := by
  cases g with
  | zero => rfl
  | succ n =>
    rw [imageAt, imageAt, if_neg (Nat.succ_ne_zero n), if_neg (Nat.succ_ne_zero n),
      Nat.succ_sub_one, List.getD_eq_getElem?_getD, List.getElem?_append_left (by omega),
      ← List.getD_eq_getElem?_getD]

theorem imageAt_append_last (imgs : List (List Nat)) (src : List Nat) :
    imageAt (imgs ++ [src]) (imgs.length + 1) = src := by
  rw [imageAt, if_neg (by omega), Nat.add_sub_cancel, List.getD_eq_getElem?_getD,
    List.getElem?_append_right (le_refl _)]
  simp

theorem ceilDiv_le_ceilDiv (a b c : Nat) (h : a ≤ b) : ceilDiv a c ≤ ceilDiv b c :=
  Nat.div_le_div_right (by omega)

theorem le_ceilDiv_mul (L cs : Nat) (hcs : 0 < cs) : L ≤ ceilDiv L cs * cs := by
  have h1 := Nat.div_add_mod (L + cs - 1) cs
  have h2 : (L + cs - 1) % cs < cs := Nat.mod_lt _ hcs
  have h3 : cs * ((L + cs - 1) / cs) = (L + cs - 1) / cs * cs := Nat.mul_comm _ _
  rw [ceilDiv]
  omega

theorem mul_lt_of_lt_ceilDiv (L cs m : Nat) (hcs : 0 < cs) (h : m + 1 ≤ ceilDiv L cs) :
    m * cs < L := by
  rw [ceilDiv] at h
  have h2 : (m + 1) * cs ≤ L + cs - 1 := (Nat.le_div_iff_mul_le hcs).mp h
  have h3 : (m + 1) * cs = m * cs + cs := Nat.succ_mul m cs
  have h4 : 0 < L := by
    by_contra hc
    have hL : L = 0 := by omega
    subst hL
    have : (cs - 1) / cs = 0 := Nat.div_eq_of_lt (by omega)
    omega
  omega

theorem has_eq_of_lookup_eq (idx1 idx2 : Index) (c : Nat)
    (h : idx1.lookup c = idx2.lookup c) : idx1.has c = idx2.has c := by
  rw [← Index.lookup_isSome_iff_has, ← Index.lookup_isSome_iff_has, h]

theorem read_meta_ok_inv (lvl : Level) (c : Nat) (ch : Chunk)
    (h : lvl.read_meta c = .ok ch) : lvl.index.lookup c = some ch := by
  rw [Level.read_meta] at h
  cases hl : lvl.index.lookup c with
  | some ch2 => rw [hl] at h; cases h; rfl
  | none => rw [hl] at h; exact absurd h (by simp)

theorem ChecksumOK_write (md5 : List Nat → String) (lvl lvl' : Level) (cid : Nat)
    (d : List Nat) (hWF : LevelWF lvl) (hCK : ChecksumOK md5 lvl)
    (h : lvl.write md5 cid d = .ok lvl') : ChecksumOK md5 lvl' := by
  intro c ch hlk
  by_cases hc : c = cid
  · subst hc
    rw [Level.write_ok_lookup_self lvl lvl' md5 c d h] at hlk
    rw [← Option.some.inj hlk, Level.write_ok_chunkData_self lvl lvl' md5 c d h]
  · rw [Level.write_ok_lookup_ne lvl lvl' md5 cid d c hc h] at hlk
    rw [Level.write_ok_chunkData_ne lvl lvl' md5 cid d c hWF hc h]
    exact hCK c ch hlk

/-- Full characterisation of one backup-loop iteration under a
collision-free digest: the base ends up holding the source's chunk `c`,
everything else is untouched, and the next level receives the base's
old chunk exactly when the base held different bytes for it. -/
theorem backupChunk_char (md5 : List Nat → String) (hinj : Function.Injective md5)
    (cs : Nat) (src : List Nat) (st st' : Level × Level) (c : Nat)
    (hWF1 : LevelWF st.1) (hCK : ChecksumOK md5 st.1) (hWF2 : LevelWF st.2)
    (h : backupChunk md5 cs src st c = .ok st') :
    (LevelWF st'.1 ∧ ChecksumOK md5 st'.1 ∧ LevelWF st'.2) ∧
    (st'.1.chunkData c = chunkOf cs src c ∧ st'.1.index.has c = true) ∧
    (∀ c', c' ≠ c → st'.1.index.lookup c' = st.1.index.lookup c' ∧
        st'.1.chunkData c' = st.1.chunkData c') ∧
    (∀ c', c' ≠ c → st'.2.index.lookup c' = st.2.index.lookup c' ∧
        st'.2.chunkData c' = st.2.chunkData c') ∧
    ((st.1.index.has c = true ∧ st.1.chunkData c ≠ chunkOf cs src c →
        st'.2.index.has c = true ∧ st'.2.chunkData c = st.1.chunkData c) ∧
      ((st.1.index.has c = false ∨ st.1.chunkData c = chunkOf cs src c) →
        st'.2.index.lookup c = st.2.index.lookup c ∧
        st'.2.chunkData c = st.2.chunkData c)) := by
  have hco : chunkOf cs src c = (src.drop (c * cs)).take cs := rfl
  cases hemp : ((src.drop (c * cs)).take cs).isEmpty with
  | true =>
    rw [backupChunk_empty md5 cs src st c hemp] at h
    exact absurd h (by simp)
  | false =>
    cases hmeta : st.1.read_meta c with
    | ok meta =>
      have hlk : st.1.index.lookup c = some meta := read_meta_ok_inv st.1 c meta hmeta
      have hhas : st.1.index.has c = true := by
        rw [← Index.lookup_isSome_iff_has, hlk]
        rfl
      have hmetaCK : meta.checksum = md5 (st.1.chunkData c) := hCK c meta hlk
      by_cases hsum : md5 ((src.drop (c * cs)).take cs) = meta.checksum
      · -- incremental fast path: base already holds these bytes
        rw [backupChunk_skip md5 cs src st c meta hemp hmeta hsum] at h
        have hst : st' = st := (Except.ok.inj h).symm
        rw [hst]
        have hdata : st.1.chunkData c = chunkOf cs src c := by
          apply hinj
          rw [← hmetaCK, hco]
          exact hsum.symm
        refine ⟨⟨hWF1, hCK, hWF2⟩, ⟨hdata, hhas⟩, fun c' _ => ⟨rfl, rfl⟩,
          fun c' _ => ⟨rfl, rfl⟩, ?_, fun _ => ⟨rfl, rfl⟩⟩
        rintro ⟨_, hne⟩
        exact absurd hdata hne
      · -- eviction path with an existing base descriptor
        rw [backupChunk_evict_meta md5 cs src st c meta hemp hmeta hsum] at h
        obtain ⟨hwb, hnx⟩ := backupEvict_ok_inv md5 st.1 st.2 c _ st' h
        have hread : st.1.read md5 c false = .ok (st.1.chunkData c) :=
          Level.read_nonstrict_chunkData st.1 md5 c meta hlk
        rcases hnx with ⟨old, hro, hw⟩ | ⟨hrnf, _⟩
        swap
        · rw [hread] at hrnf
          exact absurd hrnf (by simp)
        rw [hread] at hro
        have hold : old = st.1.chunkData c := (Except.ok.inj hro).symm
        subst hold
        refine ⟨⟨LevelWF_write st.1 st'.1 md5 c _ hWF1 hwb,
          ChecksumOK_write md5 st.1 st'.1 c _ hWF1 hCK hwb,
          LevelWF_write st.2 st'.2 md5 c _ hWF2 hw⟩, ?_, ?_, ?_, ?_, ?_⟩
        · constructor
          · rw [hco]
            exact Level.write_ok_chunkData_self st.1 st'.1 md5 c _ hwb
          · rw [← Index.lookup_isSome_iff_has,
              Level.write_ok_lookup_self st.1 st'.1 md5 c _ hwb]
            rfl
        · intro c' hc'
          exact ⟨Level.write_ok_lookup_ne st.1 st'.1 md5 c _ c' hc' hwb,
            Level.write_ok_chunkData_ne st.1 st'.1 md5 c _ c' hWF1 hc' hwb⟩
        · intro c' hc'
          exact ⟨Level.write_ok_lookup_ne st.2 st'.2 md5 c _ c' hc' hw,
            Level.write_ok_chunkData_ne st.2 st'.2 md5 c _ c' hWF2 hc' hw⟩
        · intro _
          constructor
          · rw [← Index.lookup_isSome_iff_has,
              Level.write_ok_lookup_self st.2 st'.2 md5 c _ hw]
            rfl
          · exact Level.write_ok_chunkData_self st.2 st'.2 md5 c _ hw
        · intro hpre
          rcases hpre with hf | hcd2
          · rw [hhas] at hf
            exact absurd hf (by simp)
          · exfalso
            apply hsum
            rw [hmetaCK, hcd2, hco]
    | error e =>
      have hlkn : st.1.index.lookup c = none := by
        rw [Level.read_meta] at hmeta
        cases hl : st.1.index.lookup c with
        | some ch2 => rw [hl] at hmeta; exact absurd hmeta (by simp)
        | none => rfl
      have hhasf : st.1.index.has c = false := by
        rw [← Index.lookup_isSome_iff_has, hlkn]
        rfl
      rw [backupChunk_evict_nometa md5 cs src st c e hemp hmeta] at h
      obtain ⟨hwb, hnx⟩ := backupEvict_ok_inv md5 st.1 st.2 c _ st' h
      have hrnf : st.1.read md5 c false = .error .chunkNotFound :=
        Level.read_notfound st.1 md5 c false hlkn
      rcases hnx with ⟨old, hro, _⟩ | ⟨_, hnx2⟩
      · rw [hrnf] at hro
        exact absurd hro (by simp)
      refine ⟨⟨LevelWF_write st.1 st'.1 md5 c _ hWF1 hwb,
        ChecksumOK_write md5 st.1 st'.1 c _ hWF1 hCK hwb,
        by rw [hnx2]; exact hWF2⟩, ?_, ?_, ?_, ?_, ?_⟩
      · constructor
        · rw [hco]
          exact Level.write_ok_chunkData_self st.1 st'.1 md5 c _ hwb
        · rw [← Index.lookup_isSome_iff_has,
            Level.write_ok_lookup_self st.1 st'.1 md5 c _ hwb]
          rfl
      · intro c' hc'
        exact ⟨Level.write_ok_lookup_ne st.1 st'.1 md5 c _ c' hc' hwb,
          Level.write_ok_chunkData_ne st.1 st'.1 md5 c _ c' hWF1 hc' hwb⟩
      · intro c' _
        rw [hnx2]
        exact ⟨rfl, rfl⟩
      · rintro ⟨hh, _⟩
        rw [hh] at hhasf
        exact absurd hhasf (by simp)
      · intro _
        rw [hnx2]
        exact ⟨rfl, rfl⟩

/-- Characterisation of the whole backup loop: afterwards the base
holds the source's bytes for every processed chunk id, unprocessed ids
are untouched in both levels, and the next level holds exactly the
base's displaced old chunks. -/
theorem backupLoop_char (md5 : List Nat → String) (hinj : Function.Injective md5)
    (cs : Nat) (src : List Nat) :
    ∀ (l : List Nat) (st st' : Level × Level),
      backupLoop md5 cs src st l = .ok st' →
      l.Nodup →
      LevelWF st.1 → ChecksumOK md5 st.1 → LevelWF st.2 →
      (∀ c ∈ l, st.2.index.has c = false) →
      (LevelWF st'.1 ∧ ChecksumOK md5 st'.1 ∧ LevelWF st'.2) ∧
      (∀ c ∈ l, st'.1.chunkData c = chunkOf cs src c ∧ st'.1.index.has c = true) ∧
      (∀ c, c ∉ l → st'.1.index.lookup c = st.1.index.lookup c ∧
          st'.1.chunkData c = st.1.chunkData c) ∧
      (∀ c, c ∉ l → st'.2.index.lookup c = st.2.index.lookup c ∧
          st'.2.chunkData c = st.2.chunkData c) ∧
      (∀ c ∈ l,
        (st.1.index.has c = true ∧ st.1.chunkData c ≠ chunkOf cs src c →
          st'.2.index.has c = true ∧ st'.2.chunkData c = st.1.chunkData c) ∧
        ((st.1.index.has c = false ∨ st.1.chunkData c = chunkOf cs src c) →
          st'.2.index.has c = false))
  | [], st, st', h, _, hWF1, hCK, hWF2, _ => by
    cases h
    exact ⟨⟨hWF1, hCK, hWF2⟩, fun c hc => absurd hc (List.not_mem_nil c),
      fun c _ => ⟨rfl, rfl⟩, fun c _ => ⟨rfl, rfl⟩,
      fun c hc => absurd hc (List.not_mem_nil c)⟩
  | c0 :: rest, st, st', h, hnd, hWF1, hCK, hWF2, hnx0 => by
    rw [backupLoop] at h
    cases hc : backupChunk md5 cs src st c0 with
    | error e => rw [hc, exceptBind_err] at h; exact absurd h (by simp)
    | ok st1 =>
      rw [hc, exceptBind_ok] at h
      obtain ⟨⟨hWF1a, hCKa, hWF2a⟩, hself, hne1, hne2, hnxc⟩ :=
        backupChunk_char md5 hinj cs src st st1 c0 hWF1 hCK hWF2 hc
      have hc0rest : c0 ∉ rest := (List.nodup_cons.mp hnd).1
      have hndrest : rest.Nodup := (List.nodup_cons.mp hnd).2
      have hnx1 : ∀ c ∈ rest, st1.2.index.has c = false := by
        intro c hcr
        have hne : c ≠ c0 := fun hh => hc0rest (hh ▸ hcr)
        rw [has_eq_of_lookup_eq st1.2.index st.2.index c (hne2 c hne).1]
        exact hnx0 c (List.mem_cons_of_mem c0 hcr)
      obtain ⟨htrio, hproc, hun1, hun2, hnxr⟩ :=
        backupLoop_char md5 hinj cs src rest st1 st' h hndrest hWF1a hCKa hWF2a hnx1
      refine ⟨htrio, ?_, ?_, ?_, ?_⟩
      · intro c hcm
        rcases List.mem_cons.mp hcm with rfl | hcr
        · obtain ⟨hl1, hd1⟩ := hun1 c hc0rest
          refine ⟨hd1.trans hself.1, ?_⟩
          rw [has_eq_of_lookup_eq st'.1.index st1.1.index c hl1]
          exact hself.2
        · exact hproc c hcr
      · intro c hcm
        have hnec0 : c ≠ c0 := fun hh => hcm (hh ▸ List.mem_cons_self c0 rest)
        have hnr : c ∉ rest := fun hh => hcm (List.mem_cons_of_mem c0 hh)
        obtain ⟨ha1, ha2⟩ := hun1 c hnr
        obtain ⟨hb1, hb2⟩ := hne1 c hnec0
        exact ⟨ha1.trans hb1, ha2.trans hb2⟩
      · intro c hcm
        have hnec0 : c ≠ c0 := fun hh => hcm (hh ▸ List.mem_cons_self c0 rest)
        have hnr : c ∉ rest := fun hh => hcm (List.mem_cons_of_mem c0 hh)
        obtain ⟨ha1, ha2⟩ := hun2 c hnr
        obtain ⟨hb1, hb2⟩ := hne2 c hnec0
        exact ⟨ha1.trans hb1, ha2.trans hb2⟩
      · intro c hcm
        rcases List.mem_cons.mp hcm with rfl | hcr
        · obtain ⟨hl2, hd2⟩ := hun2 c hc0rest
          constructor
          · rintro ⟨hh, hcd⟩
            obtain ⟨hx1, hx2⟩ := hnxc.1 ⟨hh, hcd⟩
            refine ⟨?_, hd2.trans hx2⟩
            rw [has_eq_of_lookup_eq st'.2.index st1.2.index c hl2]
            exact hx1
          · intro hpre
            obtain ⟨hy1, _⟩ := hnxc.2 hpre
            rw [has_eq_of_lookup_eq st'.2.index st1.2.index c hl2,
              has_eq_of_lookup_eq st1.2.index st.2.index c hy1]
            exact hnx0 c (List.mem_cons_self c rest)
        · have hnec0 : c ≠ c0 := fun hh => hc0rest (hh ▸ hcr)
          obtain ⟨hb1, hb2⟩ := hne1 c hnec0
          have hhaseq : st1.1.index.has c = st.1.index.has c :=
            has_eq_of_lookup_eq st1.1.index st.1.index c hb1
          constructor
          · rintro ⟨hh, hcd⟩
            have hh1 : st1.1.index.has c = true := by rw [hhaseq]; exact hh
            have hcd1 : st1.1.chunkData c ≠ chunkOf cs src c := by
              rw [hb2]
              exact hcd
            obtain ⟨hx1, hx2⟩ := (hnxr c hcr).1 ⟨hh1, hcd1⟩
            exact ⟨hx1, hx2.trans hb2⟩
          · intro hpre
            apply (hnxr c hcr).2
            rcases hpre with hf | hcd2
            · left
              rw [hhaseq]
              exact hf
            · right
              rw [hb2]
              exact hcd2

theorem walkFrom_concat (A : Archive) (B NX : Level) (g : Nat)
    (hg : g ≤ A.overlays.length) :
    walkFrom { A with base := B, overlays := A.overlays ++ [NX] } g
      = A.overlays.drop g ++ [NX, B] := by
  show (A.overlays ++ [NX]).drop g ++ [B] = A.overlays.drop g ++ [NX, B]
  rw [List.drop_append_of_le_length hg, List.append_assoc]
  rfl

theorem walkFrom_concat_last (A : Archive) (B NX : Level) :
    walkFrom { A with base := B, overlays := A.overlays ++ [NX] }
      (A.overlays.length + 1) = [B] := by
  show (A.overlays ++ [NX]).drop (A.overlays.length + 1) ++ [B] = [B]
  rw [show A.overlays.length + 1 = (A.overlays ++ [NX]).length by simp, List.drop_length]
  rfl

/-- Pushing a walk one backup into the past: inserting the new overlay
`NX` and the rewritten base `B` behind the old walk's prefix preserves
which image it represents. -/
theorem Represents_extend (cs : Nat) (pre : List Level) (baseOld NX B : Level)
    (img src : List Nat) (Ncap : Nat)
    (hrep : Represents cs (pre ++ [baseOld]) img)
    (hcover : ceilDiv img.length cs ≤ Ncap)
    (hB : ∀ c, c < Ncap → B.chunkData c = chunkOf cs src c ∧ B.index.has c = true)
    (hNX : ∀ c, c < Ncap →
      (baseOld.index.has c = true ∧ baseOld.chunkData c ≠ chunkOf cs src c →
        NX.index.has c = true ∧ NX.chunkData c = baseOld.chunkData c) ∧
      ((baseOld.index.has c = false ∨ baseOld.chunkData c = chunkOf cs src c) →
        NX.index.has c = false)) :
    Represents cs (pre ++ [NX, B]) img := by
  intro c hc
  have hcN : c < Ncap := lt_of_lt_of_le hc hcover
  obtain ⟨lvl, hfind, hdata⟩ := hrep c hc
  rw [List.find?_append] at hfind
  rw [List.find?_append]
  cases hpre : pre.find? (fun l => l.index.has c) with
  | some l0 =>
    rw [hpre] at hfind
    have hl0 : lvl = l0 := by
      rw [show (some l0).or ([baseOld].find? (fun l => l.index.has c)) = some l0
        from rfl] at hfind
      exact (Option.some.inj hfind).symm
    refine ⟨l0, ?_, ?_⟩
    · rfl
    · rw [← hl0]
      exact hdata
  | none =>
    rw [hpre, Option.none_or] at hfind
    rw [Option.none_or]
    cases hb : baseOld.index.has c with
    | false =>
      rw [show [baseOld].find? (fun l => l.index.has c) = none
        by simp [List.find?, hb]] at hfind
      exact absurd hfind (by simp)
    | true =>
      have hlvl : lvl = baseOld := by
        rw [show [baseOld].find? (fun l => l.index.has c) = some baseOld
          by simp [List.find?, hb]] at hfind
        exact (Option.some.inj hfind).symm
      subst hlvl
      by_cases hchg : lvl.chunkData c = chunkOf cs src c
      · have hnxf : NX.index.has c = false := (hNX c hcN).2 (Or.inr hchg)
        refine ⟨B, ?_, ?_⟩
        · simp [List.find?, hnxf, (hB c hcN).2]
        · rw [(hB c hcN).1, ← hchg]
          exact hdata
      · have hnxt := (hNX c hcN).1 ⟨hb, hchg⟩
        refine ⟨NX, ?_, ?_⟩
        · simp [List.find?, hnxt.1]
        · rw [hnxt.2]
          exact hdata

/-- The streaming phase reassembles the image when the read list covers
`0, 1, …` in order and every read returns the image's chunk. -/
theorem restoreStream_assemble (md5 : List Nat → String) (cs : Nat) (hcs : 0 < cs)
    (img : List Nat) :
    ∀ (rl : List (Nat × Level)) (m : Nat),
      rl.map Prod.fst = List.range' m rl.length →
      m + rl.length ≤ ceilDiv img.length cs →
      (∀ p ∈ rl, p.2.read md5 p.1 false = .ok (chunkOf cs img p.1)) →
      restoreStream md5 cs (img.take (m * cs)) rl
        = .ok (img.take ((m + rl.length) * cs))
  | [], m, _, _, _ => rfl
  | (c, lvl) :: rest, m, hmap, hle, hreads => by
    simp only [List.length_cons] at hmap hle ⊢
    have hmap' : c :: rest.map Prod.fst = m :: List.range' (m + 1) rest.length := by
      simpa [List.range'_succ] using hmap
    obtain ⟨hc, hrest⟩ := List.cons.inj hmap'
    subst hc
    have hm1 : c * cs < img.length :=
      mul_lt_of_lt_ceilDiv img.length cs c hcs (by omega)
    rw [restoreStream, hreads (c, lvl) (List.mem_cons_self _ _), exceptBind_ok]
    have htk : (img.take (c * cs)).length = c * cs := by
      rw [List.length_take]
      omega
    have hw := writeAt_at_end (img.take (c * cs)) (chunkOf cs img c)
    rw [htk] at hw
    rw [hw]
    have hstep : img.take (c * cs) ++ chunkOf cs img c = img.take ((c + 1) * cs) := by
      rw [show (c + 1) * cs = c * cs + cs from Nat.succ_mul c cs, List.take_add]
      rfl
    rw [hstep]
    have hres := restoreStream_assemble md5 cs hcs img rest (c + 1) hrest (by omega)
      (fun p hp => hreads p (List.mem_cons_of_mem _ hp))
    rw [show c + (rest.length + 1) = c + 1 + rest.length from by omega]
    exact hres

theorem buildReadList_total (walk : List Level) :
    ∀ (l : List Nat),
      (∀ c ∈ l, (walk.find? (fun lv => lv.index.has c)).isSome = true) →
      ∃ rl, buildReadList walk l = .ok rl
  | [], _ => ⟨[], rfl⟩
  | c :: rest, hall => by
    have hs := hall c (List.mem_cons_self c rest)
    cases hf : walk.find? (fun lv => lv.index.has c) with
    | none =>
      rw [hf] at hs
      exact absurd hs (by simp)
    | some lvl =>
      obtain ⟨rl, hrl⟩ := buildReadList_total walk rest
        (fun c' hc' => hall c' (List.mem_cons_of_mem c hc'))
      refine ⟨(c, lvl) :: rl, ?_⟩
      rw [buildReadList, hf, hrl]
      rfl

theorem ceilDiv_zero_left (cs : Nat) : ceilDiv 0 cs = 0 := by
  rw [ceilDiv]
  cases cs with
  | zero => rfl
  | succ n => exact Nat.div_eq_of_lt (by omega)

theorem ArchInv_empty (md5 : List Nat → String) (cs : Nat) :
    ArchInv md5 cs [] (emptyArchive cs) := by
  refine ⟨rfl, rfl, rfl, LevelWF_empty cs, rfl, ?_, ?_, ?_, ?_⟩
  · intro c ch hlk
    exact Option.noConfusion hlk
  · intro g hg
    have hg0 : g = 0 := by
      simpa using hg
    subst hg0
    exact Nat.le_refl 0
  · intro g hg
    have hg0 : g = 0 := by
      simpa using hg
    subst hg0
    rfl
  · intro g hg
    have hg0 : g = 0 := by
      simpa using hg
    subst hg0
    intro c hc
    rw [show (imageAt [] 0).length = 0 from rfl, ceilDiv_zero_left] at hc
    exact absurd hc (by omega)

/-- One plain backup preserves the archive invariant, extending the
image sequence. -/
theorem ArchInv_backup (md5 : List Nat → String) (hinj : Function.Injective md5)
    (cs : Nat) (imgs : List (List Nat)) (A A' : Archive)
    (src : List Nat) (hInv : ArchInv md5 cs imgs A)
    (h : A.backup md5 src none = .ok A') :
    ArchInv md5 cs (imgs ++ [src]) A' := by
  obtain ⟨hAcs, hlen, hbsize, hWFb, hbcs, hCKb, hmono, hhead, hrep⟩ := hInv
  obtain ⟨hle, st, hloop, hA'⟩ := backup_ok_inv md5 A src none A' h
  rw [hAcs] at hloop
  have hreadeq : backupReadChunks cs src.length none
      = List.range (ceilDiv src.length cs) := rfl
  rw [hreadeq] at hloop
  have hWFn0 : LevelWF ({ index := { chunk_size := cs, size := A.base.size } } : Level) :=
    ⟨⟨List.nodup_nil, fun k => k.elim0⟩, fun e he => absurd he (List.not_mem_nil e)⟩
  obtain ⟨⟨hWFB, hCKB, _⟩, hproc, -, -, hnxchar⟩ :=
    backupLoop_char md5 hinj cs src (List.range (ceilDiv src.length cs))
      ({ A.base with index := { A.base.index with size := src.length } },
        { index := { chunk_size := cs, size := A.base.size } })
      st hloop (List.nodup_range _) hWFb hCKb hWFn0 (fun c _ => rfl)
  obtain ⟨hs1, hs2, hc1, -⟩ :=
    backupLoop_ok_sizes md5 cs src (List.range (ceilDiv src.length cs)) _ st hloop
  have hs1' : st.1.size = src.length := hs1
  have hs2' : st.2.size = A.base.size := hs2
  have hc1' : st.1.chunk_size = cs := hc1.trans hbcs
  subst hA'
  refine ⟨hAcs, ?_, ?_, hWFB, hc1', hCKB, ?_, ?_, ?_⟩
  · simp [hlen]
  · show st.1.size = (imageAt (imgs ++ [src]) (imgs ++ [src]).length).length
    rw [show (imgs ++ [src]).length = imgs.length + 1 by simp, imageAt_append_last]
    exact hs1'
  · intro g hg
    simp only [List.length_append, List.length_cons, List.length_nil] at hg
    show (imageAt (imgs ++ [src]) g).length ≤ st.1.size
    by_cases hgle : g ≤ imgs.length
    · rw [imageAt_append_le imgs src g hgle]
      exact le_trans (le_trans (hmono g hgle) hle) (le_of_eq hs1'.symm)
    · have hgeq : g = imgs.length + 1 := by omega
      subst hgeq
      rw [imageAt_append_last]
      exact le_of_eq hs1'.symm
  · intro g hg
    simp only [List.length_append, List.length_cons, List.length_nil] at hg
    by_cases hgle : g ≤ imgs.length
    · by_cases hglt : g < imgs.length
      · rw [walkFrom_concat A st.1 st.2 g (by omega),
          headD_append_of_ne_nil _ _ _ (drop_ne_nil_of_lt _ _ (by omega)),
          imageAt_append_le imgs src g (by omega)]
        have hold := hhead g (by omega)
        rw [show walkFrom A g = A.overlays.drop g ++ [A.base] from rfl,
          headD_append_of_ne_nil _ _ _ (drop_ne_nil_of_lt _ _ (by omega))] at hold
        exact hold
      · have hgeq : g = imgs.length := by omega
        subst hgeq
        rw [walkFrom_concat A st.1 st.2 imgs.length (by omega),
          show A.overlays.drop imgs.length = [] from by rw [← hlen, List.drop_length],
          imageAt_append_le imgs src imgs.length (le_refl _)]
        show st.2.size = (imageAt imgs imgs.length).length
        exact hs2'.trans hbsize
    · have hgeq : g = imgs.length + 1 := by omega
      subst hgeq
      rw [show imgs.length + 1 = A.overlays.length + 1 from by omega,
        walkFrom_concat_last, hlen, imageAt_append_last]
      show st.1.size = src.length
      exact hs1'
  · intro g hg
    simp only [List.length_append, List.length_cons, List.length_nil] at hg
    by_cases hgle : g ≤ imgs.length
    · rw [walkFrom_concat A st.1 st.2 g (by omega),
        imageAt_append_le imgs src g hgle]
      refine Represents_extend cs (A.overlays.drop g) A.base st.2 st.1
        (imageAt imgs g) src (ceilDiv src.length cs) (hrep g hgle)
        (ceilDiv_le_ceilDiv _ _ _ (le_trans (hmono g hgle) hle)) ?_ ?_
      · intro c hcN
        exact hproc c (List.mem_range.mpr hcN)
      · intro c hcN
        exact hnxchar c (List.mem_range.mpr hcN)
    · have hgeq : g = imgs.length + 1 := by omega
      subst hgeq
      rw [show imgs.length + 1 = A.overlays.length + 1 from by omega,
        walkFrom_concat_last, hlen, imageAt_append_last]
      intro c hc
      have hp := hproc c (List.mem_range.mpr hc)
      refine ⟨st.1, ?_, hp.1⟩
      simp [List.find?, hp.2]

theorem ArchInv_backupSeq (md5 : List Nat → String) (hinj : Function.Injective md5)
    (cs : Nat) :
    ∀ (imgs : List (List Nat)) (pre : List (List Nat)) (A A' : Archive),
      ArchInv md5 cs pre A →
      backupSeqPlain md5 A imgs = .ok A' →
      ArchInv md5 cs (pre ++ imgs) A'
  | [], pre, A, A', hInv, h => by
    cases h
    simpa using hInv
  | src :: rest, pre, A, A', hInv, h => by
    rw [backupSeqPlain] at h
    cases hb : A.backup md5 src none with
    | error e =>
      rw [hb, exceptBind_err] at h
      exact absurd h (by simp)
    | ok A1 =>
      rw [hb, exceptBind_ok] at h
      have hInv1 := ArchInv_backup md5 hinj cs pre A A1 src hInv hb
      have hInv2 := ArchInv_backupSeq md5 hinj cs rest (pre ++ [src]) A1 A' hInv1 h
      simpa [List.append_assoc] using hInv2

/-- A walk that represents an image restores exactly that image. -/
theorem restore_of_represents (md5 : List Nat → String) (A : Archive)
    (lv : Option Nat) (img : List Nat) (hcs : 0 < A.chunk_size)
    (hlv : ∀ g, lv = some g → g < A.overlays.length)
    (hsize : ((A.restoreWalk lv).headD (emptyLevel A.chunk_size)).size = img.length)
    (hrep : Represents A.chunk_size (A.restoreWalk lv) img) :
    A.restore md5 lv = .ok img := by
  have hN : A.restoreNumChunks lv = ceilDiv img.length A.chunk_size := by
    rw [Archive.restoreNumChunks_eq A lv hcs, hsize]
  have hfind : ∀ c ∈ List.range (A.restoreNumChunks lv),
      ((A.restoreWalk lv).find? (fun l => l.index.has c)).isSome = true := by
    intro c hc
    rw [List.mem_range, hN] at hc
    obtain ⟨lvl, hf, _⟩ := hrep c hc
    rw [hf]
    rfl
  obtain ⟨rl, hrl⟩ := buildReadList_total (A.restoreWalk lv)
    (List.range (A.restoreNumChunks lv)) hfind
  obtain ⟨hmap, heach⟩ := buildReadList_ok (A.restoreWalk lv)
    (List.range (A.restoreNumChunks lv)) rl hrl
  have hrllen : rl.length = A.restoreNumChunks lv := by
    have := congrArg List.length hmap
    simpa using this
  have hreads : ∀ p ∈ rl, p.2.read md5 p.1 false
      = .ok (chunkOf A.chunk_size img p.1) := by
    intro p hp
    have hp1 : p.1 ∈ List.range (A.restoreNumChunks lv) := by
      rw [← hmap]
      exact List.mem_map_of_mem Prod.fst hp
    rw [List.mem_range, hN] at hp1
    obtain ⟨lvl, hf, hdata⟩ := hrep p.1 hp1
    have hfp := heach p hp
    rw [hf] at hfp
    have hlvl : lvl = p.2 := Option.some.inj hfp
    rw [hlvl] at hdata
    have hhas : p.2.index.has p.1 = true := by
      have hps := List.find?_some (heach p hp)
      simpa using hps
    have hsome : (p.2.index.lookup p.1).isSome = true := by
      rw [Index.lookup_isSome_iff_has]
      exact hhas
    obtain ⟨ch, hch⟩ := Option.isSome_iff_exists.mp hsome
    rw [Level.read_nonstrict_chunkData p.2 md5 p.1 ch hch, hdata]
  have hmap' : rl.map Prod.fst = List.range' 0 rl.length := by
    rw [hmap, hrllen]
    exact List.range_eq_range' _
  have hstream := restoreStream_assemble md5 A.chunk_size hcs img rl 0 hmap'
    (by rw [hrllen, hN]; omega) hreads
  rw [show (0 : Nat) * A.chunk_size = 0 from Nat.zero_mul _, Nat.zero_add,
    hrllen, hN, List.take_of_length_le (le_ceilDiv_mul img.length A.chunk_size hcs)]
    at hstream
  have hrrl : A.restoreReadList lv = .ok rl := by
    cases lv with
    | none =>
      rw [Archive.restoreReadList]
      exact hrl
    | some g =>
      rw [Archive.restoreReadList]
      rw [show (Archive.get_levels A).contains g = true from
        range_contains_true _ _ (hlv g rfl)]
      exact hrl
  show A.restore md5 lv = .ok img
  unfold Archive.restore
  rw [hrrl, exceptBind_ok]
  exact hstream

/-- C1: backing up images `I₁ … Iₖ` (no hints) into a fresh archive and
then restoring generation `j` — overlay `j` for `1 ≤ j < k`, or
`level = None` for the newest generation `k` — returns exactly `Iⱼ`
byte-for-byte, assuming a collision-free digest. -/
theorem C1_round_trip (md5 : List Nat → String) (hinj : Function.Injective md5)
    (cs : Nat) (hcs : 0 < cs) (imgs : List (List Nat)) (A : Archive)
    (h : backupSeqPlain md5 (emptyArchive cs) imgs = .ok A) :
    (∀ j : Nat, 1 ≤ j → j < imgs.length →
      A.restore md5 (some j) = .ok (imgs.getD (j - 1) [])) ∧
    (1 ≤ imgs.length →
      A.restore md5 none = .ok (imgs.getD (imgs.length - 1) [])) := by
  have hInv : ArchInv md5 cs imgs A := by
    have hseq := ArchInv_backupSeq md5 hinj cs imgs [] (emptyArchive cs) A
      (ArchInv_empty md5 cs) h
    simpa using hseq
  obtain ⟨hAcs, hlen, hbsize, hWFb, hbcs, hCKb, hmono, hhead, hrep⟩ := hInv
  constructor
  · intro j hj1 hjlt
    have hj : j ≤ imgs.length := le_of_lt hjlt
    have hwalk : A.restoreWalk (some j) = walkFrom A j := by
      rw [Archive.restoreWalk_some A j (by omega)]
      rfl
    have himg : imageAt imgs j = imgs.getD (j - 1) [] := by
      rw [imageAt, if_neg (by omega)]
    refine restore_of_represents md5 A (some j) (imgs.getD (j - 1) [])
      (by rw [hAcs]; exact hcs) ?_ ?_ ?_
    · intro g hg
      cases hg
      omega
    · rw [hwalk, hAcs, ← himg]
      exact hhead j hj
    · rw [hwalk, hAcs, ← himg]
      exact hrep j hj
  · intro hk
    have hwalk : A.restoreWalk none = walkFrom A imgs.length := by
      rw [Archive.restoreWalk_none, walkFrom, ← hlen, List.drop_length]
      rfl
    have himg : imageAt imgs imgs.length = imgs.getD (imgs.length - 1) [] := by
      rw [imageAt, if_neg (by omega)]
    refine restore_of_represents md5 A none (imgs.getD (imgs.length - 1) [])
      (by rw [hAcs]; exact hcs) (fun g hg => Option.noConfusion hg) ?_ ?_
    · rw [hwalk, hAcs, ← himg]
      exact hhead imgs.length (le_refl _)
    · rw [hwalk, hAcs, ← himg]
      exact hrep imgs.length (le_refl _)

/-- Witness for C1: two backups with a concrete injective digest, then
restore of generation 1 and of the newest generation. -/
theorem C1_round_trip_witness :
    (backupSeqPlain md5Test (emptyArchive 2) [[1, 2, 3], [4, 5, 6, 7]]
      = .ok ((backupSeqPlain md5Test (emptyArchive 2)
          [[1, 2, 3], [4, 5, 6, 7]]).toOption.getD (emptyArchive 2))) ∧
    ((backupSeqPlain md5Test (emptyArchive 2)
        [[1, 2, 3], [4, 5, 6, 7]]).toOption.getD (emptyArchive 2)).restore md5Test
      (some 1) = .ok [1, 2, 3] ∧
    ((backupSeqPlain md5Test (emptyArchive 2)
        [[1, 2, 3], [4, 5, 6, 7]]).toOption.getD (emptyArchive 2)).restore md5Test
      none = .ok [4, 5, 6, 7] :=
  ⟨by rfl,
    (C1_round_trip md5Test md5Test_injective 2 (by decide) [[1, 2, 3], [4, 5, 6, 7]] _
      (by rfl)).1 1 (by decide) (by decide),
    (C1_round_trip md5Test md5Test_injective 2 (by decide) [[1, 2, 3], [4, 5, 6, 7]] _
      (by rfl)).2 (by decide)⟩

end Backy2
